import Mathlib

/-!
Shallow embedding of the parabox movement engine
(crates/parabox/src): the rational sub-cell arithmetic, the block data
model, the world store operations (insert / remove / place), the position
queries and the full recursive push algorithm
(push / push_from / push_into / enter / exit / eat / infinity / epsilon),
together with theorems settling the specification claims.

Rust machine integers (usize) are modelled as Nat; the only place where a
negative intermediate occurs is the signed neighbour computation in
source_to_target, modelled with Int and an explicit two's-complement cast
for the value that the source converts with an `as usize` cast.
Rust panics (invalid slotmap key, out-of-bounds Vec index, unwrap on None,
the cycle-detector burn cap) and non-termination are modelled by Option:
none is a run that aborts.  Fallible game results keep the source shape
Result<T, MoveError> as Except MoveError T.
-/

namespace Parabox

/-! ## Rational (crates/parabox/src/world/algorithm/rational.rs) -/

/-- Euclidean gcd loop of rational.rs (fn gcd), with an explicit iteration
bound for structural recursion; the loop argument b strictly decreases, so
b itself bounds the iterations. -/
def rgcdAux : Nat → Nat → Nat → Nat
  | 0, a, _ => a
  | f + 1, a, b => if b = 0 then a else rgcdAux f b (a % b)

/-- Euclidean gcd as written in rational.rs. -/
def rgcd (a b : Nat) : Nat := rgcdAux (b + 1) a b

/-- Non-negative rational; the source guarantees numerator and denominator
coprime with nonzero denominator. -/
structure Rational where
  numerator : Nat
  denominator : Nat
deriving DecidableEq, Repr

namespace Rational

/-- Rational::new - reduces by the gcd.  The source asserts the denominator
is nonzero; on denominator 0 the Lean model returns the unreduced junk
value (the claims only use nonzero denominators). -/
def new (numerator denominator : Nat) : Rational :=
  let d := rgcd numerator denominator
  ⟨numerator / d, denominator / d⟩

/-- Rational::unchecked_new. -/
def unchecked_new (numerator denominator : Nat) : Rational :=
  ⟨numerator, denominator⟩

/-- Rational::HALF. -/
def HALF : Rational := ⟨1, 2⟩

/-- Rational::split. -/
def split (r : Rational) : Nat × Rational :=
  (r.numerator / r.denominator,
   unchecked_new (r.numerator % r.denominator) r.denominator)

/-- impl Add for Rational. -/
def addR (a b : Rational) : Rational :=
  new (a.numerator * b.denominator + b.numerator * a.denominator)
    (a.denominator * b.denominator)

/-- impl Sub for Rational.  The numerator is a usize subtraction that
aborts on underflow in the source, hence none in that case. -/
def subR (a b : Rational) : Option Rational :=
  if b.numerator * a.denominator ≤ a.numerator * b.denominator then
    some (new (a.numerator * b.denominator - b.numerator * a.denominator)
      (a.denominator * b.denominator))
  else none

/-- impl Mul for Rational. -/
def mulR (a b : Rational) : Rational :=
  new (a.numerator * b.numerator) (a.denominator * b.denominator)

/-- impl Div for Rational (the source asserts rhs.numerator is nonzero). -/
def divR (a b : Rational) : Rational :=
  new (a.numerator * b.denominator) (a.denominator * b.numerator)

/-- impl Add of usize for Rational. -/
def addNat (a : Rational) (k : Nat) : Rational :=
  unchecked_new (a.numerator + k * a.denominator) a.denominator

/-- impl Sub of usize for Rational.  The numerator is a usize subtraction
that aborts on underflow in the source, hence none in that case. -/
def subNat (a : Rational) (k : Nat) : Option Rational :=
  if k * a.denominator ≤ a.numerator then
    some (unchecked_new (a.numerator - k * a.denominator) a.denominator)
  else none

/-- impl Mul of usize for Rational. -/
def mulNat (a : Rational) (k : Nat) : Rational :=
  let d := rgcd k a.denominator
  unchecked_new (a.numerator * k / d) (a.denominator / d)

/-- impl Div of usize for Rational (the source asserts rhs is nonzero). -/
def divNat (a : Rational) (k : Nat) : Rational :=
  let d := rgcd a.numerator k
  unchecked_new (a.numerator / d) (a.denominator * k / d)

end Rational

/-! ## Block data model (crates/parabox/src/block) -/

/-- Block keys are slotmap keys in the source; modelled as Nat with a
fresh-key counter in the world (block/types.rs is not present in the
source tree; keys are opaque, copyable, equality-comparable handles). -/
abbrev BlockKey := Nat

/-- Size - (width, height). -/
abbrev Size := Nat × Nat

/-- Modelled from the spec: Position from the missing block/types.rs -
a pair of an optional container and (x, y) coordinates.  A position with
no container is orphan; `default` is the orphan position at (0, 0). -/
structure Position where
  container : Option BlockKey
  pos : Nat × Nat
deriving DecidableEq, Repr

/-- Position::inside. -/
def Position.inside (container : BlockKey) (pos : Nat × Nat) : Position :=
  ⟨some container, pos⟩

/-- Position::default - orphan. -/
def Position.orphan : Position := ⟨none, (0, 0)⟩

/-- Modelled from the spec: equality of positions for occupancy purposes
(the `positioned` hash set): two orphans are never in the same cell, so a
position with no container compares equal to nothing. -/
def posEqB (p q : Position) : Bool :=
  match p.container, q.container with
  | some a, some b => a = b && p.pos = q.pos
  | _, _ => false

/-- ProtoType (block/proto.rs). -/
inductive ProtoType where
  | wall : ProtoType
  | box : Size → ProtoType
  | alias : BlockKey → ProtoType
  | infinity : BlockKey → ProtoType
  | epsilon : Size → BlockKey → ProtoType
  | void : Size → ProtoType
deriving DecidableEq, Repr

namespace ProtoType

/-- ProtoType::size. -/
def size : ProtoType → Size
  | .box s => s
  | .epsilon s _ => s
  | .void s => s
  | _ => (0, 0)

/-- ProtoType::width. -/
def width (p : ProtoType) : Nat := p.size.1

/-- ProtoType::height. -/
def height (p : ProtoType) : Nat := p.size.2

/-- ProtoType::is_solid. -/
def is_solid : ProtoType → Bool
  | .wall => true
  | .alias _ => true
  | .infinity _ => true
  | _ => false

/-- ProtoType::is_hollow. -/
def is_hollow : ProtoType → Bool
  | .box _ => true
  | .epsilon _ _ => true
  | .void _ => true
  | _ => false

/-- ProtoType::is_static. -/
def is_static : ProtoType → Bool
  | .wall => true
  | .void _ => true
  | _ => false

/-- ProtoType::is_void. -/
def is_void : ProtoType → Bool
  | .void _ => true
  | _ => false

/-- ProtoType::reference. -/
def reference : ProtoType → Option BlockKey
  | .alias r => some r
  | .infinity r => some r
  | .epsilon _ r => some r
  | _ => none

/-- ProtoType::contains. -/
def contains (p : ProtoType) (xy : Nat × Nat) : Bool :=
  xy.1 < p.size.1 && xy.2 < p.size.2

end ProtoType

/-- Interior grid: x-major vector of columns of optional keys. -/
abbrev Grid := List (List (Option BlockKey))

/-- Info (block/info.rs): back-references. -/
structure Info where
  references : List BlockKey
  infinity : Option BlockKey
  epsilon : Option BlockKey
deriving DecidableEq, Repr

/-- Info::default. -/
def Info.default : Info := ⟨[], none, none⟩

/-- HashSet::insert on the references set (set semantics). -/
def Info.refInsert (k : BlockKey) (l : List BlockKey) : List BlockKey :=
  if k ∈ l then l else k :: l

/-- State (block/state.rs). -/
structure State where
  position : Position
  interior : Grid
deriving DecidableEq, Repr

/-- State::new - orphan position, empty interior grid sized from proto. -/
def State.new (s : Size) : State :=
  ⟨Position.orphan, List.replicate s.1 (List.replicate s.2 none)⟩

/-- Block (block/mod.rs). -/
structure Block where
  key : BlockKey
  proto : ProtoType
  state : State
  info : Info
deriving DecidableEq, Repr

/-- Block::new. -/
def Block.new (key : BlockKey) (proto : ProtoType) : Block :=
  ⟨key, proto, State.new proto.size, Info.default⟩

/-! ## World store (crates/parabox/src/world/world.rs) -/

/-- The world: a slotted map from keys to blocks, modelled as a function
with a fresh-key counter (keys at or above next are absent). -/
structure World where
  blocks : BlockKey → Option Block
  next : BlockKey

/-- World::new. -/
def World.new : World := ⟨fun _ => none, 0⟩

/-- Indexed lookup where the source never fails; a key that is absent in
the source panics there and yields a junk wall block here (unreachable in
all runs the claims exercise). -/
def World.get (w : World) (k : BlockKey) : Block :=
  (w.blocks k).getD (Block.new 0 .wall)

/-- Replace the mapping of one key. -/
def World.set (w : World) (k : BlockKey) (b : Block) : World :=
  ⟨fun k' => if k' = k then some b else w.blocks k', w.next⟩

/-- Mutate only the state of one block. -/
def World.modifyState (w : World) (k : BlockKey) (f : State → State) : World :=
  ⟨fun k' => if k' = k then (w.blocks k').map fun b => { b with state := f b.state }
   else w.blocks k', w.next⟩

/-- Mutate only the info of one block. -/
def World.modifyInfo (w : World) (k : BlockKey) (f : Info → Info) : World :=
  ⟨fun k' => if k' = k then (w.blocks k').map fun b => { b with info := f b.info }
   else w.blocks k', w.next⟩

/-- Read one interior cell, none when out of bounds or empty. -/
def cellAt (g : Grid) (x y : Nat) : Option BlockKey :=
  ((g.getD x []).getD y none)

/-- Write one interior cell; an out-of-bounds index panics in the source
(Vec indexing), hence none here. -/
def setCell (g : Grid) (x y : Nat) (v : Option BlockKey) : Option Grid :=
  if x < g.length then
    if y < (g.getD x []).length then
      some (g.set x ((g.getD x []).set y v))
    else none
  else none

/-- Clear the interior cell of container c at coordinates xy (the
"remove the block from its current position" step of place / remove). -/
def World.clearCell (w : World) (c : BlockKey) (xy : Nat × Nat) : Option World :=
  match w.blocks c with
  | none => none
  | some cb =>
    match setCell cb.state.interior xy.1 xy.2 none with
    | none => none
    | some g => some (w.modifyState c fun s => { s with interior := g })

/-- Write key k into the interior cell of container c at coordinates xy. -/
def World.writeCell (w : World) (c : BlockKey) (xy : Nat × Nat) (k : BlockKey) :
    Option World :=
  match w.blocks c with
  | none => none
  | some cb =>
    match setCell cb.state.interior xy.1 xy.2 (some k) with
    | none => none
    | some g => some (w.modifyState c fun s => { s with interior := g })

/-- The first half of place / remove: clear the block's current interior
cell, a no-op for an orphan. -/
def World.clearOld (w : World) (kb : Block) : Option World :=
  match kb.state.position.container with
  | none => some w
  | some c0 => w.clearCell c0 kb.state.position.pos

/-- World::place - clears the old interior cell, writes the new one,
sets the position.  Panics of the source (absent keys, out-of-bounds
indices) are none. -/
def World.place (w : World) (k : BlockKey) (position : Position) : Option World :=
  match w.blocks k with
  | none => none
  | some kb =>
    match w.clearOld kb with
    | none => none
    | some w1 =>
      let step2 : Option World :=
        match position.container with
        | none => some w1
        | some cT => w1.writeCell cT position.pos k
      match step2 with
      | none => none
      | some w2 =>
        some (w2.modifyState k fun s => { s with position := position })

/-- Allocate the fresh key for a new block built from the prototype. -/
def World.extend (w : World) (proto : ProtoType) : World :=
  ⟨fun k' => if k' = w.next then some (Block.new w.next proto) else w.blocks k',
    w.next + 1⟩

/-- World::insert - allocates the fresh key, creates the block, registers
the back-reference on the referent (a referent absent from the map panics
in the source, none here). -/
def World.insert (w : World) (proto : ProtoType) : Option (BlockKey × World) :=
  let k := w.next
  let w1 : World := w.extend proto
  match proto with
  | .alias r =>
    match w1.blocks r with
    | none => none
    | some _ =>
      some (k, w1.modifyInfo r fun i => { i with references := Info.refInsert k i.references })
  | .infinity r =>
    match w1.blocks r with
    | none => none
    | some _ => some (k, w1.modifyInfo r fun i => { i with infinity := some k })
  | .epsilon _ r =>
    match w1.blocks r with
    | none => none
    | some _ => some (k, w1.modifyInfo r fun i => { i with epsilon := some k })
  | _ => some (k, w1)

/-- Children of an interior grid in the iteration order of the source
(rows of the x-major vector, then cells). -/
def gridChildren (g : Grid) : List BlockKey :=
  (g.flatten).filterMap id

/-- Orphan every child with place(child, Position::default()). -/
def World.placeOrphans (w : World) (ks : List BlockKey) : Option World :=
  ks.foldlM (fun wa c => wa.place c Position.orphan) w

/-- Drop one key from the map. -/
def World.removeKey (w : World) (k : BlockKey) : World :=
  ⟨fun k' => if k' = k then none else w.blocks k', w.next⟩

mutual

/-- World::remove - detaches from the container, removes the block,
orphans the children, cascades to reference owners.  fuel bounds the
cascade recursion; the source panics where this returns none. -/
def World.remove (w : World) (k : BlockKey) (fuel : Nat) : Option World :=
  if fuel = 0 then none
  else
    match w.blocks k with
    | none => none
    | some blk =>
      match w.clearOld blk with
      | none => none
      | some w1 =>
        let w2 := w1.removeKey k
        match w2.placeOrphans (gridChildren blk.state.interior) with
        | none => none
        | some w3 =>
          match World.removeList w3 blk.info.references (fuel - 1) with
          | none => none
          | some w4 =>
            let step5 : Option World :=
              match blk.info.infinity with
              | none => some w4
              | some i => World.remove w4 i (fuel - 1)
            match step5 with
            | none => none
            | some w5 =>
              match blk.info.epsilon with
              | none => some w5
              | some e => World.remove w5 e (fuel - 1)
termination_by (fuel, 0)

/-- Cascade removal over a list of reference owners. -/
def World.removeList (w : World) (ks : List BlockKey) (fuel : Nat) : Option World :=
  match ks with
  | [] => some w
  | r :: t =>
    match World.remove w r fuel with
    | none => none
    | some w' => World.removeList w' t fuel
termination_by (fuel, ks.length + 1)

end

/-! ## Position queries (crates/parabox/src/world/query.rs) -/

/-- PositionState. -/
inductive PositionState where
  | voidP : PositionState
  | empty : PositionState
  | outOfBound : PositionState
  | present : BlockKey → PositionState
deriving DecidableEq, Repr

/-- World::position. -/
def World.position (w : World) (k : BlockKey) : Position :=
  (w.get k).state.position

/-- World::position_state. -/
def World.position_state (w : World) (position : Position) : PositionState :=
  match position.container with
  | none => .voidP
  | some c =>
    let cb := w.get c
    if cb.proto.contains position.pos then
      match cellAt cb.state.interior position.pos.1 position.pos.2 with
      | some k => .present k
      | none => .empty
    else .outOfBound

/-! ## Movement data (crates/parabox/src/world/algorithm/movement.rs) -/

/-- Direction. -/
inductive Direction where
  | north | south | east | west
deriving DecidableEq, Repr

/-- Direction::delta. -/
def Direction.delta : Direction → Int × Int
  | .north => (0, 1)
  | .south => (0, -1)
  | .east => (1, 0)
  | .west => (-1, 0)

/-- Direction::opposite. -/
def Direction.opposite : Direction → Direction
  | .north => .south
  | .south => .north
  | .east => .west
  | .west => .east

/-- SourceArrow. -/
structure SourceArrow where
  position : Position
  direction : Direction
  precise : Rational
deriving DecidableEq, Repr

/-- TargetArrow. -/
structure TargetArrow where
  position : Position
  direction : Direction
  precise : Rational
deriving DecidableEq, Repr

/-- ExitInfo. -/
structure ExitInfo where
  from_ : BlockKey
  direction : Direction
  precise : Rational
deriving DecidableEq, Repr

/-- EnterInfo. -/
structure EnterInfo where
  into : BlockKey
  direction : Direction
  precise : Rational
deriving DecidableEq, Repr

/-- EatInfo. -/
structure EatInfo where
  eat : BlockKey
  ate : BlockKey
  direction : Direction
deriving DecidableEq, Repr

/-- Movement. -/
structure Movement where
  key : BlockKey
  target : Position
deriving DecidableEq, Repr

/-- MoveError. -/
inductive MoveError where
  | orphan : BlockKey → MoveError
  | noInfinity : BlockKey → MoveError
  | noEpsilon : BlockKey → MoveError
deriving DecidableEq, Repr

/-! ## MoveProcessor (movement.rs) -/

namespace MoveProcessor

/-- MoveProcessor::exit - the exit info becomes a source arrow at the
container's own position; an orphan container is an error. -/
def exitStep (w : World) (info : ExitInfo) : Except MoveError SourceArrow :=
  let position := (w.get info.from_).state.position
  match position.container with
  | none => .error (.orphan info.from_)
  | some _ => .ok ⟨position, info.direction, info.precise⟩

/-- MoveProcessor::infinity - substitute the container with its Infinity
back-reference, keeping direction and the precise it is handed. -/
def infinityStep (w : World) (info : ExitInfo) : Except MoveError ExitInfo :=
  match (w.get info.from_).info.infinity with
  | none => .error (.noInfinity info.from_)
  | some i => .ok ⟨i, info.direction, info.precise⟩

/-- MoveProcessor::alias - chase the reference chain of Alias blocks; an
alias cycle loops forever in the source, hence fuel. -/
def aliasStep (w : World) (info : EnterInfo) (fuel : Nat) : Option EnterInfo :=
  if fuel = 0 then none
  else
    match (w.get info.into).proto with
    | .alias r => aliasStep w ⟨r, info.direction, info.precise⟩ (fuel - 1)
    | _ => some info
termination_by fuel

/-- MoveProcessor::epsilon - substitute the enter target with its Epsilon
back-reference, keeping direction and precise. -/
def epsilonStep (w : World) (info : EnterInfo) : Except MoveError EnterInfo :=
  match (w.get info.into).info.epsilon with
  | none => .error (.noEpsilon info.into)
  | some e => .ok ⟨e, info.direction, info.precise⟩

/-- MoveProcessor::enter - the landing geometry: tangent coordinate on the
crossed edge, normal coordinate and residual precise from
(precise * extent).split(). -/
def enter (w : World) (info : EnterInfo) : Option TargetArrow :=
  let container := w.get info.into
  if container.proto.is_solid then none
  else
    let tangent : Nat :=
      match info.direction with
      | .north => 0
      | .south => container.proto.height - 1
      | .east => 0
      | .west => container.proto.width - 1
    let normal : Nat :=
      match info.direction with
      | .north | .south => container.proto.width
      | .east | .west => container.proto.height
    let os := (info.precise.mulNat normal).split
    let pos : Nat × Nat :=
      match info.direction with
      | .north | .south => (os.1, tangent)
      | .east | .west => (tangent, os.1)
    some ⟨Position.inside info.into pos, info.direction, os.2⟩

/-- MoveProcessor::eat - the equivalent entering movement: into the eater,
opposite direction, centered precise. -/
def eatStep (info : EatInfo) : EnterInfo :=
  ⟨info.eat, info.direction.opposite, Rational.HALF⟩

end MoveProcessor

/-! ## Cycle resolution loops (algorithm.rs uses cycle.rs) -/

/-- Lookup of the stored auxiliary value in the exit cycle detector (the
detector appends (key, value) on first push and returns the stored value
on re-push). -/
def cycleLookup (c : List (BlockKey × Rational)) (k : BlockKey) : Option Rational :=
  match c with
  | [] => none
  | (k', v) :: t => if k' = k then some v else cycleLookup t k

/-- The inner while-let loop of push_from: while the container is already
in the exit cycle detector, substitute it by its Infinity back-reference
with the precise that was stored when the container was first pushed;
when absent, record (container, precise) and stop.  The source can loop
forever when the infinity chain cycles inside the detector, hence fuel. -/
def resolveExit (w : World) (c : List (BlockKey × Rational)) (info : ExitInfo)
    (fuel : Nat) : Option (Except MoveError (ExitInfo × List (BlockKey × Rational))) :=
  if fuel = 0 then none
  else
    match cycleLookup c info.from_ with
    | some original =>
      match MoveProcessor.infinityStep w ⟨info.from_, info.direction, original⟩ with
      | .error e => some (.error e)
      | .ok info' => resolveExit w c info' (fuel - 1)
    | none => some (.ok (info, (info.from_, info.precise) :: c))
termination_by fuel

/-- The inner while loop of push_into around epsilon: while the enter info
is already in the enter cycle detector, substitute the target with its
Epsilon back-reference; when absent, record the info and stop.  The enter
cycle detector trace is kept most-recent-first (the source Vec pushes and
pops at the end). -/
def resolveEnter (w : World) (c : List EnterInfo) (info : EnterInfo)
    (fuel : Nat) : Option (Except MoveError (EnterInfo × List EnterInfo)) :=
  if fuel = 0 then none
  else
    if info ∈ c then
      match MoveProcessor.epsilonStep w info with
      | .error e => some (.error e)
      | .ok info' => resolveEnter w c info' (fuel - 1)
    else some (.ok (info, info :: c))
termination_by fuel

/-! ## Algorithm (crates/parabox/src/world/algorithm/algorithm.rs) -/

/-- The mutable state of Algorithm: the push cycle trace (most recent
first; the source Vec pushes and pops at the end), the ordered tentative
movements and the claimed target positions. -/
structure AlgState where
  trace : List BlockKey
  movements : List Movement
  positioned : List Position
deriving DecidableEq, Repr

/-- Algorithm::new. -/
def AlgState.init : AlgState := ⟨[], [], []⟩

/-- Membership in the positioned set under the occupancy equality. -/
def positionedContains (l : List Position) (p : Position) : Bool :=
  l.any fun q => posEqB q p

/-- HashSet::insert on positioned. -/
def positionedInsert (l : List Position) (p : Position) : List Position :=
  if positionedContains l p then l else p :: l

/-- Algorithm::confirm - saves the movement unless a cycling movement is
blocked by an already claimed target; the source always returns Ok(true)
alongside. -/
def AlgState.confirm (st : AlgState) (movement : Movement) (cycling : Bool) :
    AlgState :=
  if cycling && positionedContains st.positioned movement.target then st
  else
    { st with
      movements := st.movements ++ [movement],
      positioned := positionedInsert st.positioned movement.target }

/-- Pop the last entry of the push trace (Cycle::pop). -/
def AlgState.popTrace (st : AlgState) : AlgState :=
  { st with trace := st.trace.tail }

/-- The usize cast of a negative isize wraps (two's complement); the
source applies it to the exit offset. -/
def usizeCast (i : Int) : Nat := (i % (2 ^ 64 : Int)).toNat

/-- Algorithm::source_to_target - neighbour cell in the direction, or the
exit info when out of bounds; the source unwraps the container (none here
when orphan). -/
def source_to_target (w : World) (source : SourceArrow) :
    Option (Except ExitInfo TargetArrow) :=
  match source.position.container with
  | none => none
  | some container =>
    let x : Int := (source.position.pos.1 : Int) + source.direction.delta.1
    let y : Int := (source.position.pos.2 : Int) + source.direction.delta.2
    let wh := (w.get container).proto.size
    if x < 0 ∨ y < 0 ∨ x ≥ (wh.1 : Int) ∨ y ≥ (wh.2 : Int) then
      let ot : Nat × Nat :=
        match source.direction with
        | .north | .south => (usizeCast x, wh.1)
        | .east | .west => (usizeCast y, wh.2)
      let precise := (source.precise.addNat ot.1).divNat ot.2
      some (.error ⟨container, source.direction, precise⟩)
    else
      some (.ok ⟨Position.inside container (x.toNat, y.toNat),
        source.direction, source.precise⟩)

/-- Algorithm::target_to_movement - the movement when the target cell is
empty, the movement plus the enter info when it is taken; other position
states are unreachable in the source (none here). -/
def target_to_movement (w : World) (key : BlockKey) (target : TargetArrow) :
    Option (Except (Movement × EnterInfo) Movement) :=
  let movement : Movement := ⟨key, target.position⟩
  match w.position_state target.position with
  | .present k' => some (.error (movement, ⟨k', target.direction, target.precise⟩))
  | .empty => some (.ok movement)
  | _ => none

/-- Position::is_in_void - whether the position is directly inside a void
block. -/
def isInVoid (w : World) (p : Position) : Bool :=
  match p.container with
  | none => false
  | some c => (w.get c).proto.is_void

/-- BlockKey::is_void. -/
def keyIsVoid (w : World) (k : BlockKey) : Bool :=
  (w.get k).proto.is_void

/-- Result of one algorithm routine: none is an aborted run (a panic or a
diverging loop of the source, bounded by fuel here), otherwise the source
MoveResult together with the algorithm state. -/
abbrev AlgRes := Option (Except MoveError (Bool × AlgState))

mutual

/-- Algorithm::push - returns false for a static block, errors for an
orphan block, otherwise pushes from the block's position with centered
precise. -/
def pushStep (w : World) (st : AlgState) (key : BlockKey) (direction : Direction)
    (fuel : Nat) : AlgRes :=
  if fuel = 0 then none
  else
    let block := w.get key
    if block.proto.is_static then some (.ok (false, st))
    else
      match block.state.position.container with
      | none => some (.error (.orphan key))
      | some _ =>
        push_from w st key ⟨block.state.position, direction, Rational.HALF⟩ []
          (fuel - 1)
termination_by (fuel, 0)

/-- Algorithm::push_from - resolve exits: walk the neighbour computation
upward through containers, resolving exit cycles by infinity substitution,
forbidding exits from a void block. -/
def push_from (w : World) (st : AlgState) (key : BlockKey) (source : SourceArrow)
    (cycle : List (BlockKey × Rational)) (fuel : Nat) : AlgRes :=
  if fuel = 0 then none
  else
    match source_to_target w source with
    | none => none
    | some (.ok target) => push_into w st key target false (fuel - 1)
    | some (.error info0) =>
      match resolveExit w cycle info0 fuel with
      | none => none
      | some (.error e) => some (.error e)
      | some (.ok (info, cycle')) =>
        if keyIsVoid w info.from_ then some (.ok (false, st))
        else
          match MoveProcessor.exitStep w info with
          | .error e => some (.error e)
          | .ok source' => push_from w st key source' cycle' (fuel - 1)
termination_by (fuel, 0)

/-- Algorithm::push_into - detect push cycles on the trace, then run the
push-enter loop starting with a fresh enter cycle detector; eating
suppresses the first pushing try. -/
def push_into (w : World) (st : AlgState) (key : BlockKey) (target : TargetArrow)
    (eating : Bool) (fuel : Nat) : AlgRes :=
  if fuel = 0 then none
  else
    if key ∈ st.trace then some (.ok (true, st))
    else
      pushIntoLoop w { st with trace := key :: st.trace } key eating [] target
        (!eating) (fuel - 1)
termination_by (fuel, 0)

/-- The push-enter loop of push_into: an empty target confirms directly; a
taken target first tries to push the resident (unless suppressed), then -
unless the contested cell is directly inside a void - resolves aliases and
enter cycles and tries to enter; a failed enter falls through to the eat
phase. -/
def pushIntoLoop (w : World) (st : AlgState) (key : BlockKey) (eating : Bool)
    (ecycle : List EnterInfo) (current : TargetArrow) (canPush : Bool)
    (fuel : Nat) : AlgRes :=
  if fuel = 0 then none
  else
    match target_to_movement w key current with
    | none => none
    | some (.ok movement) => some (.ok (true, st.confirm movement false))
    | some (.error (movement, info)) =>
      let pushed : AlgRes :=
        if canPush then pushStep w st info.into info.direction (fuel - 1)
        else some (.ok (false, st))
      match pushed with
      | none => none
      | some (.error e) => some (.error e)
      | some (.ok (true, st')) => some (.ok (true, st'.confirm movement true))
      | some (.ok (false, st')) =>
        if isInVoid w movement.target then eatPhase w st' key eating ecycle (fuel - 1)
        else
          match MoveProcessor.aliasStep w info fuel with
          | none => none
          | some info1 =>
            match resolveEnter w ecycle info1 fuel with
            | none => none
            | some (.error e) => some (.error e)
            | some (.ok (info2, ecycle')) =>
              match MoveProcessor.enter w info2 with
              | some next =>
                pushIntoLoop w st' key eating ecycle' next true (fuel - 1)
              | none => eatPhase w st' key eating ecycle' (fuel - 1)
termination_by (fuel, 0)

/-- The eat loop of push_into: pop enter-cycle entries most recent first;
when eating, stop before the last entry (the first enter target); skip
static candidates; otherwise let the candidate enter the eater from the
opposite direction, and on success confirm taking the candidate's place.
When the loop is exhausted the trace entry of key is popped and the push
fails. -/
def eatPhase (w : World) (st : AlgState) (key : BlockKey) (eating : Bool)
    (ecycle : List EnterInfo) (fuel : Nat) : AlgRes :=
  if fuel = 0 then none
  else
    match ecycle with
    | [] => some (.ok (false, st.popTrace))
    | info :: rest =>
      if eating && rest.isEmpty then some (.ok (false, st.popTrace))
      else if (w.get info.into).proto.is_static then
        eatPhase w st key eating rest fuel
      else
        let enterInfo := MoveProcessor.eatStep ⟨key, info.into, info.direction⟩
        let enterTarget : TargetArrow :=
          ⟨(w.get enterInfo.into).state.position, enterInfo.direction,
            enterInfo.precise⟩
        match push_into w st info.into enterTarget true (fuel - 1) with
        | none => none
        | some (.error e) => some (.error e)
        | some (.ok (true, st1)) =>
          some (.ok (true,
            st1.confirm ⟨key, (w.get info.into).state.position⟩ true))
        | some (.ok (false, st1)) => eatPhase w st1 key eating rest fuel
termination_by (fuel, ecycle.length + 1)

end

/-- Algorithm::commit - writes every tentative movement's target into the
block's position, in list order.  (This is the whole commit of the
source: it does not touch any interior grid.) -/
def commit (st : AlgState) (w : World) : World :=
  st.movements.foldl
    (fun wa m => wa.modifyState m.key fun s => { s with position := m.target }) w

/-- World::push (crates/parabox/src/world/algorithm/mod.rs): run the
algorithm on a fresh state and commit exactly when the result is true. -/
def World.push (w : World) (key : BlockKey) (direction : Direction)
    (fuel : Nat) : Option (Except MoveError Bool × World) :=
  match pushStep w AlgState.init key direction fuel with
  | none => none
  | some (.error e) => some (.error e, w)
  | some (.ok (result, st)) =>
    some (.ok result, if result then commit st w else w)

/-! ## Specification-side predicates -/

/-- Invariant I1 (position / interior agreement): a block inside a
container occupies exactly its recorded interior cell, and every occupied
interior cell belongs to a block whose position names it back. -/
def interiorAgrees (w : World) : Prop :=
  (∀ k b, w.blocks k = some b → ∀ c, b.state.position.container = some c →
    ∃ cb, w.blocks c = some cb ∧
      cellAt cb.state.interior b.state.position.pos.1 b.state.position.pos.2 = some k) ∧
  (∀ c cb, w.blocks c = some cb → ∀ x y k, cellAt cb.state.interior x y = some k →
    ∃ b, w.blocks k = some b ∧ b.state.position = Position.inside c (x, y))

/-- Invariant P4: every references set equals exactly the set of Alias
blocks in the world whose reference is this block, and info.infinity /
info.epsilon name exactly the referring Infinity / Epsilon block. -/
def infoAccurate (w : World) : Prop :=
  ∀ k b, w.blocks k = some b →
    (∀ r, r ∈ b.info.references ↔
      ∃ ab, w.blocks r = some ab ∧ ab.proto = .alias k) ∧
    (∀ i, b.info.infinity = some i ↔
      ∃ ib, w.blocks i = some ib ∧ ib.proto = .infinity k) ∧
    (∀ e, b.info.epsilon = some e ↔
      ∃ eb, w.blocks e = some eb ∧ ∃ s, eb.proto = .epsilon s k)

/-- Key discipline of the slotted store: present keys lie below the fresh
counter, and every prototype reference names an allocated slot. -/
def wfWorld (w : World) : Prop :=
  (∀ k b, w.blocks k = some b → k < w.next) ∧
  (∀ k b, w.blocks k = some b → ∀ r, b.proto.reference = some r → r < w.next)

/-- Two worlds with pointwise identical block existence, info and proto
(only state may differ). -/
def sameInfoProto (w w' : World) : Prop :=
  ∀ j, ((w'.blocks j).map Block.info = (w.blocks j).map Block.info) ∧
    ((w'.blocks j).map Block.proto = (w.blocks j).map Block.proto)

/-- Reduced rational: coprime numerator and denominator, denominator at
least one. -/
def Rational.Reduced (r : Rational) : Prop :=
  Nat.Coprime r.numerator r.denominator ∧ 1 ≤ r.denominator

/-- The eat candidates as the claim words them: the enter targets recorded
in the enter cycle detector in reverse order of recording (the detector
trace is kept most recent first, so this is the trace order); when the
call was eating, the final candidate - the first enter target, the last
element of the trace - is skipped; static candidates are skipped. -/
def eatCandidatesSpec (w : World) (eating : Bool) (c : List EnterInfo) :
    List EnterInfo :=
  (if eating then c.dropLast else c).filter fun i =>
    !(w.get i.into).proto.is_static

/-- Trying the eat candidates in the order given: each candidate enters
the eater from the opposite direction with centered precise; the first
success confirms; exhaustion pops the trace and fails. -/
def eatTrySpec (w : World) (st : AlgState) (key : BlockKey)
    (cands : List EnterInfo) (fuel : Nat) : AlgRes :=
  if fuel = 0 then none
  else
    match cands with
    | [] => some (.ok (false, st.popTrace))
    | info :: rest =>
      let enterInfo := MoveProcessor.eatStep ⟨key, info.into, info.direction⟩
      let enterTarget : TargetArrow :=
        ⟨(w.get enterInfo.into).state.position, enterInfo.direction,
          enterInfo.precise⟩
      match push_into w st info.into enterTarget true (fuel - 1) with
      | none => none
      | some (.error e) => some (.error e)
      | some (.ok (true, st1)) =>
        some (.ok (true,
          st1.confirm ⟨key, (w.get info.into).state.position⟩ true))
      | some (.ok (false, st1)) => eatTrySpec w st1 key rest fuel

/-! ## Concrete worlds for counterexamples and witnesses -/

/-- A 2 x 1 box (key 0) holding a pushable 1 x 1 box (key 1) at (0, 0). -/
def c1World : World :=
  ⟨fun k =>
    if k = 0 then
      some ⟨0, .box (2, 1), ⟨Position.orphan, [[some 1], [none]]⟩, Info.default⟩
    else if k = 1 then
      some ⟨1, .box (1, 1), ⟨Position.inside 0 (0, 0), [[none]]⟩, Info.default⟩
    else none, 2⟩

/-- The world after pushing block 1 east in c1World. -/
def c1After : World :=
  ((c1World.push 1 .east 30).map Prod.snd).getD c1World

/-- A single orphan wall (key 0). -/
def wallWorld : World :=
  ⟨fun k => if k = 0 then some ⟨0, .wall, ⟨Position.orphan, []⟩, Info.default⟩
   else none, 1⟩

/-- The world returned by pushing the wall of wallWorld east. -/
def wallAfter : World :=
  ((wallWorld.push 0 .east 5).map Prod.snd).getD wallWorld

/-- A 3 x 1 box (key 0) holding a pushable 1 x 1 box (key 1) at (0, 0) and
a 1 x 1 void (key 2) at (1, 0) with an empty interior. -/
def c3World : World :=
  ⟨fun k =>
    if k = 0 then
      some ⟨0, .box (3, 1), ⟨Position.orphan, [[some 1], [some 2], [none]]⟩,
        Info.default⟩
    else if k = 1 then
      some ⟨1, .box (1, 1), ⟨Position.inside 0 (0, 0), [[none]]⟩, Info.default⟩
    else if k = 2 then
      some ⟨2, .void (1, 1), ⟨Position.inside 0 (1, 0), [[none]]⟩, Info.default⟩
    else none, 3⟩

/-- The world after pushing block 1 east in c3World. -/
def c3After : World :=
  ((c3World.push 1 .east 30).map Prod.snd).getD c3World

/-- A 1 x 1 void (key 0) holding a wall (key 1) at (0, 0). -/
def voidWallWorld : World :=
  ⟨fun k =>
    if k = 0 then
      some ⟨0, .void (1, 1), ⟨Position.orphan, [[some 1]]⟩, Info.default⟩
    else if k = 1 then
      some ⟨1, .wall, ⟨Position.inside 0 (0, 0), []⟩, Info.default⟩
    else none, 2⟩

/-- Insert a 1 x 1 box into the empty world (its key is 0). -/
def c4w1 : World :=
  ((World.new.insert (.box (1, 1))).map Prod.snd).getD World.new

/-- Insert an alias of block 0 (its key is 1). -/
def c4w2 : World :=
  ((c4w1.insert (.alias 0)).map Prod.snd).getD c4w1

/-- Remove the alias block 1. -/
def c4w3 : World :=
  (c4w2.remove 1 10).getD c4w2

/-- A 2 x 2 box (key 0), the enter geometry witness container. -/
def boxWorld : World :=
  ⟨fun k =>
    if k = 0 then
      some ⟨0, .box (2, 2),
        ⟨Position.orphan, [[none, none], [none, none]]⟩, Info.default⟩
    else none, 1⟩

/-- Box 3 carries an Infinity back-reference to block 4. -/
def c5World : World :=
  ⟨fun k =>
    if k = 3 then
      some ⟨3, .box (1, 1), ⟨Position.orphan, [[none]]⟩, ⟨[], some 4, none⟩⟩
    else if k = 4 then
      some ⟨4, .infinity 3, ⟨Position.orphan, []⟩, Info.default⟩
    else none, 5⟩

/-- A 2 x 1 box (key 0) holding box 1 at (0, 0), with an orphan wall
(key 2) to be placed onto the occupied cell. -/
def c10World : World :=
  ⟨fun k =>
    if k = 0 then
      some ⟨0, .box (2, 1), ⟨Position.orphan, [[some 1], [none]]⟩, Info.default⟩
    else if k = 1 then
      some ⟨1, .box (1, 1), ⟨Position.inside 0 (0, 0), [[none]]⟩, Info.default⟩
    else if k = 2 then
      some ⟨2, .wall, ⟨Position.orphan, []⟩, Info.default⟩
    else none, 3⟩

/-- The world after placing wall 2 onto the occupied cell (0, 0) of box 0
in c10World. -/
def c10After : World :=
  (c10World.place 2 (Position.inside 0 (0, 0))).getD c10World

/-! ## Theorems -/

/-- The bounded Euclidean loop computes Nat.gcd when the bound suffices. -/
theorem rgcdAux_eq_gcd : ∀ f a b, b < f → rgcdAux f a b = Nat.gcd b a := by
  intro f
  induction f with
  | zero => omega
  | succ f ih =>
    intro a b hb
    show (if b = 0 then a else rgcdAux f b (a % b)) = Nat.gcd b a
    by_cases h : b = 0
    · simp [h]
    · rw [if_neg h, ih b (a % b) (by
        have := Nat.mod_lt a (Nat.pos_of_ne_zero h)
        omega)]
      exact (Nat.gcd_rec b a).symm

/-- The Euclidean loop of rational.rs computes Nat.gcd with swapped
arguments. -/
theorem rgcd_eq_gcd (a b : Nat) : rgcd a b = Nat.gcd b a :=
  rgcdAux_eq_gcd (b + 1) a b (Nat.lt_succ_self b)

/-- C2: on Err or Ok(false) the returned world is the pre-call world: the
algorithm reads the world immutably and World::push commits only when the
traversal returns true. -/
theorem c2_push_atomic_on_failure (w : World) (key : BlockKey) (d : Direction)
    (fuel : Nat) (r : Except MoveError Bool) (w' : World)
    (h : w.push key d fuel = some (r, w')) (hr : r ≠ .ok true) : w' = w := by
  unfold World.push at h
  cases hp : pushStep w AlgState.init key d fuel with
  | none => rw [hp] at h; cases h
  | some x =>
    rw [hp] at h
    match x with
    | .error e =>
      simp only [Option.some.injEq, Prod.mk.injEq] at h
      exact h.2.symm
    | .ok (true, st) =>
      simp only [Option.some.injEq, Prod.mk.injEq] at h
      exact absurd h.1.symm hr
    | .ok (false, st) =>
      simp only [if_neg, Bool.false_eq_true, if_false, Option.some.injEq,
        Prod.mk.injEq] at h
      exact h.2.symm

/-- Witness for C2: the blocked push of an orphan wall returns its world
unchanged. -/
theorem c2_push_atomic_witness : wallAfter = wallWorld := by
  have hstep : pushStep wallWorld AlgState.init 0 .east 5
      = some (.ok (false, AlgState.init)) := by
    rw [pushStep]
    simp [wallWorld, World.get, ProtoType.is_static]
  have hpush : wallWorld.push 0 .east 5 = some (.ok false, wallWorld) := by
    unfold World.push
    rw [hstep]
    rfl
  exact c2_push_atomic_on_failure wallWorld 0 .east 5 (.ok false) wallAfter
    (by simp [wallAfter, hpush]) (by simp)

/-- C8: pushing a block whose prototype is static returns Ok(false) and the
unchanged world, for every direction and position (the static check comes
before the orphan check in Algorithm::push). -/
theorem c8_static_push_returns_false (w : World) (key : BlockKey) (d : Direction)
    (fuel : Nat) (b : Block) (hf : fuel ≠ 0) (hb : w.blocks key = some b)
    (hs : b.proto.is_static = true) :
    w.push key d fuel = some (.ok false, w) := by
  have hstep : pushStep w AlgState.init key d fuel
      = some (.ok (false, AlgState.init)) := by
    rw [pushStep]
    simp [hf, World.get, hb, hs]
  unfold World.push
  rw [hstep]
  rfl

/-- Witness for C8: the orphan wall of wallWorld is static and orphan, and
its push returns Ok(false) with the world untouched. -/
theorem c8_static_push_witness :
    wallWorld.push 0 .east 5 = some (.ok false, wallWorld) :=
  c8_static_push_returns_false wallWorld 0 .east 5
    ⟨0, .wall, ⟨Position.orphan, []⟩, Info.default⟩ (by decide) rfl rfl

/-- C5: when the exit walk revisits a container already recorded in the
exit cycle detector, the substituted ExitInfo is the container's Infinity
back-reference with the same direction and the precise stored at the
container's first push (not the currently computed precise); without an
Infinity back-reference the walk errors with NoInfinity(container). -/
theorem c5_exit_cycle_substitution (w : World) (c : List (BlockKey × Rational))
    (k : BlockKey) (d : Direction) (p o : Rational) (fuel : Nat)
    (h : cycleLookup c k = some o) :
    ((w.get k).info.infinity = none →
      resolveExit w c ⟨k, d, p⟩ (fuel + 1) = some (.error (.noInfinity k))) ∧
    (∀ i, (w.get k).info.infinity = some i →
      resolveExit w c ⟨k, d, p⟩ (fuel + 1) = resolveExit w c ⟨i, d, o⟩ fuel) := by
  constructor
  · intro hn
    rw [resolveExit]
    simp [h, MoveProcessor.infinityStep, hn]
  · intro i hi
    rw [resolveExit]
    simp [h, MoveProcessor.infinityStep, hi]

/-- Witness for C5: box 3 is recorded in the detector with stored precise
1/3; revisiting it substitutes its Infinity block 4 and resets the precise
to 1/3 although the current precise is 1/2. -/
theorem c5_exit_cycle_witness :
    resolveExit c5World [(3, ⟨1, 3⟩)] ⟨3, .east, Rational.HALF⟩ (5 + 1)
      = resolveExit c5World [(3, ⟨1, 3⟩)] ⟨4, .east, ⟨1, 3⟩⟩ 5 :=
  (c5_exit_cycle_substitution c5World [(3, ⟨1, 3⟩)] 3 .east Rational.HALF
    ⟨1, 3⟩ 5 rfl).2 4 rfl

/-- C6: entering a non-solid container of size (W, H): the tangent
coordinate is 0 from North or East, H-1 from South, W-1 from West; with
N = W for North/South and N = H for East/West, (offset, frac) =
(precise * N).split() gives the landing coordinate and the carried
precise; the cell is (offset, tangent) for North/South and
(tangent, offset) for East/West. -/
theorem c6_enter_geometry (w : World) (into : BlockKey) (d : Direction)
    (p : Rational) (h : (w.get into).proto.is_solid = false) :
    MoveProcessor.enter w ⟨into, d, p⟩ =
      (let W := (w.get into).proto.size.1
       let H := (w.get into).proto.size.2
       let tangent : Nat :=
         match d with
         | .north | .east => 0
         | .south => H - 1
         | .west => W - 1
       let N : Nat :=
         match d with
         | .north | .south => W
         | .east | .west => H
       let os := (p.mulNat N).split
       let cell : Nat × Nat :=
         match d with
         | .north | .south => (os.1, tangent)
         | .east | .west => (tangent, os.1)
       some ⟨Position.inside into cell, d, os.2⟩) := by
  cases d <;>
    simp [MoveProcessor.enter, ProtoType.width, ProtoType.height, h]

/-- Witness for C6: entering the 2 x 2 box from the west edge going east
with precise 1/2 lands at cell (0, 1) carrying precise 0. -/
theorem c6_enter_geometry_witness :
    MoveProcessor.enter boxWorld ⟨0, .east, Rational.HALF⟩ =
      some ⟨Position.inside 0 (0, 1), .east, ⟨0, 1⟩⟩ :=
  (c6_enter_geometry boxWorld 0 .east Rational.HALF rfl).trans (by decide)

/-- Rational::new yields a reduced value with positive denominator. -/
theorem new_reduced (n d : Nat) (hd : d ≠ 0) : (Rational.new n d).Reduced := by
  have hg : rgcd n d = Nat.gcd n d := by
    rw [rgcd_eq_gcd, Nat.gcd_comm]
  have hgpos : 0 < Nat.gcd n d :=
    Nat.gcd_pos_of_pos_right n (Nat.pos_of_ne_zero hd)
  constructor
  · show Nat.Coprime (n / rgcd n d) (d / rgcd n d)
    rw [hg]
    exact Nat.coprime_div_gcd_div_gcd hgpos
  · show 1 ≤ d / rgcd n d
    rw [hg]
    exact Nat.div_pos (Nat.le_of_dvd (Nat.pos_of_ne_zero hd)
      (Nat.gcd_dvd_right n d)) hgpos

/-- C9: every rational produced by new, by the four operations with a
rational or with a natural number, or by split, from reduced operands with
nonzero denominator, is itself reduced with denominator at least 1, under
only the per-operation constraints the source itself asserts (a nonzero
divisor for the two divisions, completion without usize underflow for the
two subtractions); and split of n/d returns the floor n/d together with
(n mod d)/d. -/
theorem c9_rational_reduced :
    (∀ n d : Nat, d ≠ 0 → (Rational.new n d).Reduced) ∧
    (∀ a b : Rational, a.Reduced → b.Reduced → (a.addR b).Reduced) ∧
    (∀ (a b r : Rational), a.Reduced → b.Reduced →
      a.subR b = some r → r.Reduced) ∧
    (∀ a b : Rational, a.Reduced → b.Reduced → (a.mulR b).Reduced) ∧
    (∀ a b : Rational, a.Reduced → b.Reduced → b.numerator ≠ 0 →
      (a.divR b).Reduced) ∧
    (∀ (a : Rational) (k : Nat), a.Reduced → (a.addNat k).Reduced) ∧
    (∀ (a : Rational) (k : Nat) (r : Rational), a.Reduced →
      a.subNat k = some r → r.Reduced) ∧
    (∀ (a : Rational) (k : Nat), a.Reduced → (a.mulNat k).Reduced) ∧
    (∀ (a : Rational) (k : Nat), a.Reduced → k ≠ 0 → (a.divNat k).Reduced) ∧
    (∀ a : Rational, a.split = (a.numerator / a.denominator,
      ⟨a.numerator % a.denominator, a.denominator⟩)) ∧
    (∀ a : Rational, a.Reduced → (a.split.2).Reduced) := by
  refine ⟨new_reduced, ?_, ?_, ?_, ?_, ?_, ?_, ?_, ?_, fun a => rfl, ?_⟩
  · intro a b ha hb
    exact new_reduced _ _ (Nat.mul_ne_zero (by have := ha.2; omega)
      (by have := hb.2; omega))
  · intro a b r ha hb h
    unfold Rational.subR at h
    split_ifs at h
    cases h
    exact new_reduced _ _ (Nat.mul_ne_zero (by have := ha.2; omega)
      (by have := hb.2; omega))
  · intro a b ha hb
    exact new_reduced _ _ (Nat.mul_ne_zero (by have := ha.2; omega)
      (by have := hb.2; omega))
  · intro a b ha hb hbn
    exact new_reduced _ _ (Nat.mul_ne_zero (by have := ha.2; omega) hbn)
  · intro a k ha
    constructor
    · show Nat.Coprime (a.numerator + k * a.denominator) a.denominator
      exact (Nat.coprime_add_mul_right_left a.numerator a.denominator k).mpr ha.1
    · exact ha.2
  · intro a k r ha h
    unfold Rational.subNat at h
    split_ifs at h with hle
    cases h
    constructor
    · show Nat.Coprime (a.numerator - k * a.denominator) a.denominator
      have hrw : a.numerator - k * a.denominator + k * a.denominator
          = a.numerator := Nat.sub_add_cancel hle
      have h2 : Nat.Coprime
          (a.numerator - k * a.denominator + k * a.denominator)
          a.denominator := by rw [hrw]; exact ha.1
      exact (Nat.coprime_add_mul_right_left
        (a.numerator - k * a.denominator) a.denominator k).mp h2
    · exact ha.2
  · intro a k ha
    have haD : a.denominator ≠ 0 := by have := ha.2; omega
    constructor
    · show Nat.Coprime (a.numerator * k / rgcd k a.denominator)
        (a.denominator / rgcd k a.denominator)
      have hg : rgcd k a.denominator = Nat.gcd k a.denominator := by
        rw [rgcd_eq_gcd, Nat.gcd_comm]
      rw [hg, Nat.mul_div_assoc a.numerator (Nat.gcd_dvd_left k a.denominator)]
      have hgpos : 0 < Nat.gcd k a.denominator :=
        Nat.gcd_pos_of_pos_right k (Nat.pos_of_ne_zero haD)
      refine Nat.Coprime.mul ?_ ?_
      · exact Nat.Coprime.coprime_dvd_right
          (Nat.div_dvd_of_dvd (Nat.gcd_dvd_right k a.denominator)) ha.1
      · exact Nat.coprime_div_gcd_div_gcd hgpos
    · show 1 ≤ a.denominator / rgcd k a.denominator
      have hg : rgcd k a.denominator = Nat.gcd k a.denominator := by
        rw [rgcd_eq_gcd, Nat.gcd_comm]
      rw [hg]
      exact Nat.div_pos (Nat.le_of_dvd (Nat.pos_of_ne_zero haD)
          (Nat.gcd_dvd_right k a.denominator))
        (Nat.gcd_pos_of_pos_right k (Nat.pos_of_ne_zero haD))
  · intro a k ha hk
    have haD : a.denominator ≠ 0 := by have := ha.2; omega
    constructor
    · show Nat.Coprime (a.numerator / rgcd a.numerator k)
        (a.denominator * k / rgcd a.numerator k)
      have hg : rgcd a.numerator k = Nat.gcd a.numerator k := by
        rw [rgcd_eq_gcd, Nat.gcd_comm]
      rw [hg, Nat.mul_div_assoc a.denominator (Nat.gcd_dvd_right a.numerator k)]
      have hgpos : 0 < Nat.gcd a.numerator k :=
        Nat.gcd_pos_of_pos_right a.numerator (Nat.pos_of_ne_zero hk)
      refine Nat.Coprime.mul_right ?_ ?_
      · exact Nat.Coprime.coprime_dvd_left
          (Nat.div_dvd_of_dvd (Nat.gcd_dvd_left a.numerator k)) ha.1
      · exact Nat.coprime_div_gcd_div_gcd hgpos
    · show 1 ≤ a.denominator * k / rgcd a.numerator k
      have hg : rgcd a.numerator k = Nat.gcd a.numerator k := by
        rw [rgcd_eq_gcd, Nat.gcd_comm]
      rw [hg, Nat.mul_div_assoc a.denominator (Nat.gcd_dvd_right a.numerator k)]
      have hkg : 0 < k / Nat.gcd a.numerator k :=
        Nat.div_pos (Nat.le_of_dvd (Nat.pos_of_ne_zero hk)
            (Nat.gcd_dvd_right a.numerator k))
          (Nat.gcd_pos_of_pos_right a.numerator (Nat.pos_of_ne_zero hk))
      exact Nat.mul_pos (Nat.pos_of_ne_zero haD) hkg
  · intro a ha
    constructor
    · show Nat.Coprime (a.numerator % a.denominator) a.denominator
      unfold Nat.Coprime
      rw [← Nat.gcd_rec]
      rw [Nat.gcd_comm]
      exact ha.1
    · exact ha.2

/-- Witness for C9: each operation applied at concrete reduced operands,
including the everyday cases the algorithm performs - a proper fraction
scaled by a positive natural (HALF.mulNat 3), a natural added to a proper
fraction (HALF.addNat 1), a zero operand (addR with 0/1, mulNat 0) - plus
the two completed subtractions and both divisions. -/
theorem c9_rational_reduced_witness :
    (Rational.new 6 4).Reduced ∧
    ((⟨7, 2⟩ : Rational).addR ⟨0, 1⟩).Reduced ∧
    ((⟨7, 2⟩ : Rational).subR ⟨5, 6⟩ = some ⟨8, 3⟩ ∧
      (⟨8, 3⟩ : Rational).Reduced) ∧
    ((⟨7, 2⟩ : Rational).mulR ⟨5, 6⟩).Reduced ∧
    ((⟨7, 2⟩ : Rational).divR ⟨5, 6⟩).Reduced ∧
    (Rational.HALF.addNat 1).Reduced ∧
    ((⟨7, 2⟩ : Rational).subNat 2 = some ⟨3, 2⟩ ∧
      (⟨3, 2⟩ : Rational).Reduced) ∧
    (Rational.HALF.mulNat 3).Reduced ∧
    ((⟨7, 2⟩ : Rational).mulNat 0).Reduced ∧
    ((⟨7, 2⟩ : Rational).divNat 2).Reduced ∧
    (⟨7, 2⟩ : Rational).split = (3, ⟨1, 2⟩) ∧
    ((⟨7, 2⟩ : Rational).split.2).Reduced := by
  have h := c9_rational_reduced
  refine ⟨h.1 6 4 (by decide),
    h.2.1 ⟨7, 2⟩ ⟨0, 1⟩ (by constructor <;> decide) (by constructor <;> decide),
    ⟨by decide, h.2.2.1 ⟨7, 2⟩ ⟨5, 6⟩ ⟨8, 3⟩ (by constructor <;> decide)
      (by constructor <;> decide) (by decide)⟩,
    h.2.2.2.1 ⟨7, 2⟩ ⟨5, 6⟩ (by constructor <;> decide)
      (by constructor <;> decide),
    h.2.2.2.2.1 ⟨7, 2⟩ ⟨5, 6⟩ (by constructor <;> decide)
      (by constructor <;> decide) (by decide),
    h.2.2.2.2.2.1 Rational.HALF 1 (by constructor <;> decide),
    ⟨by decide, h.2.2.2.2.2.2.1 ⟨7, 2⟩ 2 ⟨3, 2⟩ (by constructor <;> decide)
      (by decide)⟩,
    h.2.2.2.2.2.2.2.1 Rational.HALF 3 (by constructor <;> decide),
    h.2.2.2.2.2.2.2.1 ⟨7, 2⟩ 0 (by constructor <;> decide),
    h.2.2.2.2.2.2.2.2.1 ⟨7, 2⟩ 2 (by constructor <;> decide) (by decide),
    (h.2.2.2.2.2.2.2.2.2.1 ⟨7, 2⟩).trans (by decide),
    h.2.2.2.2.2.2.2.2.2.2 ⟨7, 2⟩ (by constructor <;> decide)⟩

/-- The eat candidate list loses a static head. -/
theorem eatCandidatesSpec_cons_static (w : World) (eating : Bool)
    (info : EnterInfo) (rest : List EnterInfo)
    (hstat : (w.get info.into).proto.is_static = true)
    (hbreak : ¬(eating = true ∧ rest = [])) :
    eatCandidatesSpec w eating (info :: rest) = eatCandidatesSpec w eating rest := by
  unfold eatCandidatesSpec
  cases eating with
  | false => simp [hstat]
  | true =>
    rcases rest with _ | ⟨r, rs⟩
    · exact absurd ⟨rfl, rfl⟩ hbreak
    · simp [List.dropLast_cons₂, hstat]

/-- The eat candidate list keeps a non-static head. -/
theorem eatCandidatesSpec_cons_live (w : World) (eating : Bool)
    (info : EnterInfo) (rest : List EnterInfo)
    (hstat : ¬(w.get info.into).proto.is_static = true)
    (hbreak : ¬(eating = true ∧ rest = [])) :
    eatCandidatesSpec w eating (info :: rest)
      = info :: eatCandidatesSpec w eating rest := by
  unfold eatCandidatesSpec
  cases eating with
  | false => simp [hstat]
  | true =>
    rcases rest with _ | ⟨r, rs⟩
    · exact absurd ⟨rfl, rfl⟩ hbreak
    · simp [List.dropLast_cons₂, hstat]

/-- C7: the eat phase tries exactly the enter targets recorded in the
enter cycle detector, in reverse order of recording (most deeply nested
first), skipping candidates whose prototype is static, and - when the
call was made with eating - skipping the final candidate, the first enter
target. -/
theorem c7_eat_candidates (w : World) (key : BlockKey) (eating : Bool) :
    ∀ (c : List EnterInfo) (st : AlgState) (fuel : Nat),
      eatPhase w st key eating c fuel
        = eatTrySpec w st key (eatCandidatesSpec w eating c) fuel := by
  intro c
  induction c with
  | nil =>
    intro st fuel
    rw [eatPhase, eatTrySpec.eq_def]
    simp [eatCandidatesSpec]
  | cons info rest ih =>
    intro st fuel
    rw [eatPhase]
    by_cases hf : fuel = 0
    · rw [eatTrySpec.eq_def]
      simp [hf]
    · by_cases hbreak : eating = true ∧ rest = []
      · obtain ⟨he, hr⟩ := hbreak
        subst he
        subst hr
        have hcand : eatCandidatesSpec w true [info] = [] := by
          simp [eatCandidatesSpec]
        rw [hcand, eatTrySpec.eq_def]
        simp [hf]
      · have hcond : (eating && rest.isEmpty) = false := by
          cases eating with
          | false => simp
          | true =>
            rcases rest with _ | ⟨r, rs⟩
            · exact absurd ⟨rfl, rfl⟩ hbreak
            · simp
        simp only [hf, if_false, hcond, Bool.false_eq_true]
        by_cases hstat : (w.get info.into).proto.is_static = true
        · rw [if_pos hstat, ih st fuel,
            eatCandidatesSpec_cons_static w eating info rest hstat hbreak]
        · rw [if_neg hstat,
            eatCandidatesSpec_cons_live w eating info rest hstat hbreak,
            eatTrySpec.eq_def]
          simp only [hf, if_false, MoveProcessor.eatStep]
          cases hp : push_into w st info.into
            ⟨(w.get key).state.position, info.direction.opposite,
              Rational.HALF⟩ true (fuel - 1) with
          | none => rfl
          | some x =>
            match x with
            | .error e => rfl
            | .ok (true, st1) => rfl
            | .ok (false, st1) => exact ih st1 fuel

/-- C1 (code bug): in c1World the push of box 1 east succeeds, but the
commit writes only the position: the old interior cell (0, 0) of box 0
still names block 1, the landing cell (1, 0) stays empty, and invariant I1
fails after the call. -/
theorem c1_commit_skips_interiors :
    ((c1World.push 1 .east 30).map Prod.fst) = some (.ok true) ∧
    cellAt (c1After.get 0).state.interior 0 0 = some 1 ∧
    cellAt (c1After.get 0).state.interior 1 0 = none ∧
    (c1After.get 1).state.position = Position.inside 0 (1, 0) ∧
    ¬ interiorAgrees c1After := by
  have h0 : c1After.blocks 0
      = some ⟨0, .box (2, 1), ⟨Position.orphan, [[some 1], [none]]⟩,
          Info.default⟩ := by
    simp [c1After, World.push, pushStep, push_from, push_into, pushIntoLoop,
      source_to_target, target_to_movement, World.position_state, World.get,
      c1World, cellAt, AlgState.init, AlgState.confirm, Rational.HALF,
      Position.inside, Position.orphan, ProtoType.is_static, ProtoType.contains,
      ProtoType.size, Direction.delta, positionedContains, positionedInsert,
      posEqB, Info.default, commit, World.modifyState]
  have h1 : c1After.blocks 1
      = some ⟨1, .box (1, 1), ⟨Position.inside 0 (1, 0), [[none]]⟩,
          Info.default⟩ := by
    simp [c1After, World.push, pushStep, push_from, push_into, pushIntoLoop,
      source_to_target, target_to_movement, World.position_state, World.get,
      c1World, cellAt, AlgState.init, AlgState.confirm, Rational.HALF,
      Position.inside, Position.orphan, ProtoType.is_static, ProtoType.contains,
      ProtoType.size, Direction.delta, positionedContains, positionedInsert,
      posEqB, Info.default, commit, World.modifyState]
  refine ⟨?_, ?_, ?_, ?_, ?_⟩
  · simp [World.push, pushStep, push_from, push_into, pushIntoLoop,
      source_to_target, target_to_movement, World.position_state, World.get,
      c1World, cellAt, AlgState.init, AlgState.confirm, Rational.HALF,
      Position.inside, Position.orphan, ProtoType.is_static, ProtoType.contains,
      ProtoType.size, Direction.delta, positionedContains, positionedInsert,
      posEqB, Info.default, commit, World.modifyState]
  · rw [World.get, h0]
    decide
  · rw [World.get, h0]
    decide
  · rw [World.get, h1]
    decide
  · intro hI
    obtain ⟨b, hb, hpos⟩ := hI.2 0 _ h0 0 0 1 (by decide)
    rw [h1] at hb
    have hbeq := Option.some.inj hb
    rw [← hbeq] at hpos
    exact absurd hpos (by decide)

/-- C3 (counterexample): block 1 sits at (0, 0) of box 0, not inside any
Void; pushing it east resolves an enter into the void block 2 whose
landing cell (0, 0) is empty, the movement is confirmed and committed, and
the push returns Ok(true) with block 1 now directly inside the Void. -/
theorem c3_enter_void_empty_cell :
    ((c3World.push 1 .east 30).map Prod.fst) = some (.ok true) ∧
    (pushStep c3World AlgState.init 1 .east 30).map
        (fun r => r.map (fun p => p.2.movements))
      = some (.ok [⟨1, Position.inside 2 (0, 0)⟩]) ∧
    c3After.position 1 = Position.inside 2 (0, 0) ∧
    isInVoid c3World (c3World.position 1) = false ∧
    isInVoid c3World (Position.inside 2 (0, 0)) = true := by
  refine ⟨?_, ?_, ?_, by decide, by decide⟩
  · simp [World.push, pushStep, push_from, push_into, pushIntoLoop,
      source_to_target, target_to_movement, World.position_state, World.get,
      c3World, cellAt, AlgState.init, AlgState.confirm, Rational.HALF,
      Position.inside, Position.orphan, ProtoType.is_static, ProtoType.contains,
      ProtoType.size, Direction.delta, positionedContains, positionedInsert,
      posEqB, Info.default, commit, World.modifyState, isInVoid, keyIsVoid,
      ProtoType.is_void, MoveProcessor.aliasStep, resolveEnter,
      MoveProcessor.epsilonStep, MoveProcessor.enter, ProtoType.is_solid,
      ProtoType.height, ProtoType.width, Rational.mulNat, Rational.split,
      Rational.unchecked_new, rgcd, rgcdAux]
  · simp [pushStep, push_from, push_into, pushIntoLoop,
      source_to_target, target_to_movement, World.position_state, World.get,
      c3World, cellAt, AlgState.init, AlgState.confirm, Rational.HALF,
      Position.inside, Position.orphan, ProtoType.is_static, ProtoType.contains,
      ProtoType.size, Direction.delta, positionedContains, positionedInsert,
      posEqB, Info.default, isInVoid, keyIsVoid,
      ProtoType.is_void, MoveProcessor.aliasStep, resolveEnter,
      MoveProcessor.epsilonStep, MoveProcessor.enter, ProtoType.is_solid,
      ProtoType.height, ProtoType.width, Rational.mulNat, Rational.split,
      Rational.unchecked_new, rgcd, rgcdAux, Except.map]
  · simp [c3After, World.position, World.push, pushStep, push_from, push_into,
      pushIntoLoop, source_to_target, target_to_movement, World.position_state,
      World.get, c3World, cellAt, AlgState.init, AlgState.confirm, Rational.HALF,
      Position.inside, Position.orphan, ProtoType.is_static, ProtoType.contains,
      ProtoType.size, Direction.delta, positionedContains, positionedInsert,
      posEqB, Info.default, commit, World.modifyState, isInVoid, keyIsVoid,
      ProtoType.is_void, MoveProcessor.aliasStep, resolveEnter,
      MoveProcessor.epsilonStep, MoveProcessor.enter, ProtoType.is_solid,
      ProtoType.height, ProtoType.width, Rational.mulNat, Rational.split,
      Rational.unchecked_new, rgcd, rgcdAux]

/-- C3 (amended guard): when the cell under contention is occupied, the
resident's push fails and the cell lies directly inside a Void block, the
push-enter loop abandons entering and falls through to the eat phase over
the candidates recorded so far. -/
theorem c3_void_guard_on_occupied (w : World) (st st' : AlgState)
    (key : BlockKey) (eating : Bool) (ecycle : List EnterInfo)
    (current : TargetArrow) (movement : Movement) (info : EnterInfo)
    (fuel : Nat) (hf : fuel ≠ 0)
    (ht : target_to_movement w key current = some (.error (movement, info)))
    (hp : pushStep w st info.into info.direction (fuel - 1)
      = some (.ok (false, st')))
    (hv : isInVoid w movement.target = true) :
    pushIntoLoop w st key eating ecycle current true fuel
      = eatPhase w st' key eating ecycle (fuel - 1) := by
  rw [pushIntoLoop]
  simp [hf, ht, hp, hv]

/-- Witness for the amended C3: a wall occupies the only cell of a void;
its push fails, so the contested in-void cell sends the loop straight to
the eat phase. -/
theorem c3_void_guard_witness :
    pushIntoLoop voidWallWorld ⟨[5], [], []⟩ 5 false []
      ⟨Position.inside 0 (0, 0), .east, Rational.HALF⟩ true 7
      = eatPhase voidWallWorld ⟨[5], [], []⟩ 5 false [] 6 :=
  c3_void_guard_on_occupied voidWallWorld ⟨[5], [], []⟩ ⟨[5], [], []⟩ 5 false []
    ⟨Position.inside 0 (0, 0), .east, Rational.HALF⟩
    ⟨5, Position.inside 0 (0, 0)⟩ ⟨1, .east, Rational.HALF⟩ 7
    (by decide) rfl
    (by rw [pushStep]; simp [voidWallWorld, World.get, ProtoType.is_static])
    (by decide)

/-- Same length and pointwise same row lengths. -/
def gridShapeEq (g g' : Grid) : Prop :=
  g.length = g'.length ∧ ∀ i, (g.getD i []).length = (g'.getD i []).length

/-- An occupied cell read implies in-bounds indices. -/
theorem cellAt_bounds {g : Grid} {x y : Nat} {b : BlockKey}
    (h : cellAt g x y = some b) :
    x < g.length ∧ y < (g.getD x []).length := by
  unfold cellAt at h
  constructor
  · by_contra hx
    push_neg at hx
    rw [List.getD_eq_default g [] hx] at h
    simp [List.getD] at h
  · by_contra hy
    push_neg at hy
    rw [List.getD_eq_default (g.getD x []) none hy] at h
    cases h

/-- In-bounds writes succeed with the expected grid. -/
theorem setCell_of_bounds {g : Grid} {x y : Nat} (v : Option BlockKey)
    (hx : x < g.length) (hy : y < (g.getD x []).length) :
    setCell g x y v = some (g.set x ((g.getD x []).set y v)) := by
  unfold setCell
  rw [if_pos hx, if_pos hy]

/-- A successful write preserves the grid shape. -/
theorem setCell_shape {g g' : Grid} {x y : Nat} {v : Option BlockKey}
    (h : setCell g x y v = some g') : gridShapeEq g' g := by
  unfold setCell at h
  split_ifs at h with hx hy
  cases h
  constructor
  · exact List.length_set ..
  · intro i
    by_cases hix : i = x
    · subst hix
      rw [List.getD_eq_getElem?_getD (g.set i ((g.getD i []).set y v)) i [],
        List.getElem?_set_self hx, Option.getD_some]
      exact List.length_set ..
    · rw [List.getD_eq_getElem?_getD (g.set x ((g.getD x []).set y v)) i [],
        List.getElem?_set_ne (fun he => hix he.symm),
        ← List.getD_eq_getElem?_getD]

/-- Reading back the freshly written cell. -/
theorem cellAt_set_self {g : Grid} {x y : Nat} {v : Option BlockKey}
    (hx : x < g.length) (hy : y < (g.getD x []).length) :
    cellAt (g.set x ((g.getD x []).set y v)) x y = v := by
  unfold cellAt
  rw [List.getD_eq_getElem?_getD (g.set x ((g.getD x []).set y v)) x [],
    List.getElem?_set_self hx, Option.getD_some,
    List.getD_eq_getElem?_getD ((g.getD x []).set y v) y none,
    List.getElem?_set_self hy, Option.getD_some]

/-- A state edit that only replaces the interior moves no position. -/
theorem modifyState_interior_pos (w : World) (c : BlockKey) (g : Grid)
    (j : BlockKey) :
    (((w.modifyState c fun s => { s with interior := g }).blocks j).map
      fun b => b.state.position) = (w.blocks j).map fun b => b.state.position := by
  unfold World.modifyState
  by_cases hjc : j = c
  · subst hjc
    simp only [if_pos rfl]
    cases w.blocks j <;> rfl
  · simp [hjc]

/-- clearOld moves no position. -/
theorem clearOld_map_position {w : World} {kb : Block} {w1 : World}
    (h : w.clearOld kb = some w1) (j : BlockKey) :
    ((w1.blocks j).map fun b => b.state.position)
      = (w.blocks j).map fun b => b.state.position := by
  unfold World.clearOld at h
  split at h
  · cases h
    rfl
  · unfold World.clearCell at h
    split at h
    · cases h
    · split at h
      · cases h
      · cases h
        exact modifyState_interior_pos ..

/-- clearOld keeps every block, its proto, its position and its interior
shape. -/
theorem clearOld_blocks {w : World} {kb : Block} {w1 : World}
    (h : w.clearOld kb = some w1) (j : BlockKey) (b' : Block)
    (hj : w.blocks j = some b') :
    ∃ b, w1.blocks j = some b ∧ b.state.position = b'.state.position ∧
      b.proto = b'.proto ∧ gridShapeEq b.state.interior b'.state.interior := by
  unfold World.clearOld at h
  split at h
  · cases h
    exact ⟨b', hj, rfl, rfl, rfl, fun _ => rfl⟩
  · rename_i a1 c0 heq
    unfold World.clearCell at h
    split at h
    · cases h
    · rename_i a2 cb0 hc0
      cases hset : setCell cb0.state.interior kb.state.position.pos.1
          kb.state.position.pos.2 none with
      | none => rw [hset] at h; cases h
      | some g0 =>
        rw [hset] at h
        cases h
        by_cases hjc : j = c0
        · subst hjc
          rw [hj] at hc0
          cases hc0
          refine ⟨{ b' with
              state := { position := b'.state.position, interior := g0 } },
            ?_, rfl, rfl, setCell_shape hset⟩
          simp [World.modifyState, hj]
        · refine ⟨b', ?_, rfl, rfl, rfl, fun _ => rfl⟩
          simp [World.modifyState, hjc, hj]

/-- C10: place checks neither bounds nor occupancy of the target: placing
k onto an in-bounds cell already occupied by bk overwrites the interior
cell with k, signals nothing, and leaves the resident's recorded position
untouched. -/
theorem c10_place_overwrites_occupied (w : World) (k cont : BlockKey)
    (x y : Nat) (bk : BlockKey) (kb cb : Block) (w1 : World)
    (hk : w.blocks k = some kb)
    (hclear : w.clearOld kb = some w1)
    (hc : w.blocks cont = some cb)
    (hcell : cellAt cb.state.interior x y = some bk)
    (hbk : bk ≠ k) :
    ∃ w', w.place k (Position.inside cont (x, y)) = some w' ∧
      cellAt (w'.get cont).state.interior x y = some k ∧
      ((w'.blocks bk).map fun b => b.state.position)
        = (w.blocks bk).map fun b => b.state.position := by
  obtain ⟨hx, hy⟩ := cellAt_bounds hcell
  obtain ⟨cb1, hc1, hpos1, hproto1, hshape1⟩ := clearOld_blocks hclear cont cb hc
  have hx1 : x < cb1.state.interior.length := by rw [hshape1.1]; exact hx
  have hy1 : y < (cb1.state.interior.getD x []).length := by rw [hshape1.2]; exact hy
  obtain ⟨g1, hg1⟩ : ∃ g1, cb1.state.interior.set x
      ((cb1.state.interior.getD x []).set y (some k)) = g1 := ⟨_, rfl⟩
  have hwrite := setCell_of_bounds (some k) hx1 hy1
  rw [hg1] at hwrite
  refine ⟨((w1.modifyState cont fun s => { s with interior := g1 }).modifyState k
        fun s => { s with position := Position.inside cont (x, y) }),
    ?_, ?_, ?_⟩
  · unfold World.place
    simp only [hk, hclear, Position.inside]
    unfold World.writeCell
    simp only [hc1, hwrite]
  · have hpick : ∀ u : World,
        ((u.modifyState k fun s =>
          { s with position := Position.inside cont (x, y) }).get cont).state.interior
        = ((u.get cont).state.interior) := by
      intro u
      unfold World.get World.modifyState
      by_cases hkc : cont = k
      · subst hkc
        simp only [if_pos rfl]
        cases u.blocks cont <;> rfl
      · simp [hkc]
    rw [hpick]
    have hinner : ((w1.modifyState cont fun s =>
        { s with interior := g1 }).get cont).state.interior = g1 := by
      unfold World.get World.modifyState
      simp only [if_pos rfl, hc1]
      rfl
    rw [hinner, ← hg1]
    exact cellAt_set_self hx1 hy1
  · have houter : (((w1.modifyState cont fun s =>
        { s with interior := g1 }).modifyState k
          fun s => { s with position := Position.inside cont (x, y) }).blocks bk)
        = ((w1.modifyState cont fun s => { s with interior := g1 }).blocks bk) := by
      unfold World.modifyState
      simp [hbk]
    rw [houter, modifyState_interior_pos, clearOld_map_position hclear]

/-- Witness for C10: placing the orphan wall 2 onto the cell (0, 0) of
box 0 that box 1 occupies succeeds, writes 2 into the cell and leaves the
position of box 1 untouched. -/
theorem c10_place_overwrites_witness :
    ∃ w', c10World.place 2 (Position.inside 0 (0, 0)) = some w' ∧
      cellAt (w'.get 0).state.interior 0 0 = some 2 ∧
      ((w'.blocks 1).map fun b => b.state.position)
        = (c10World.blocks 1).map fun b => b.state.position :=
  c10_place_overwrites_occupied c10World 2 0 0 0 1
    ⟨2, .wall, ⟨Position.orphan, []⟩, Info.default⟩
    ⟨0, .box (2, 1), ⟨Position.orphan, [[some 1], [none]]⟩, Info.default⟩
    c10World rfl rfl rfl (by decide) (by decide)

/-- Membership in the HashSet-style reference insert. -/
theorem mem_refInsert {x k : BlockKey} {l : List BlockKey} :
    x ∈ Info.refInsert k l ↔ x = k ∨ x ∈ l := by
  unfold Info.refInsert
  by_cases hkl : k ∈ l
  · rw [if_pos hkl]
    constructor
    · exact .inr
    · rintro (h | h)
      · subst h
        exact hkl
      · exact h
  · rw [if_neg hkl]
    exact List.mem_cons

/-- Transfer of a proto-existence statement across a world that adds one
fresh block and changes no other block's proto. -/
theorem existsAt_shift {w w' : World} {k : BlockKey} {proto : ProtoType}
    (hk : w.blocks k = none)
    (hatk : (w'.blocks k).map Block.proto = some proto)
    (hat : ∀ x, x ≠ k → (w'.blocks x).map Block.proto
      = (w.blocks x).map Block.proto)
    (x : BlockKey) (P : ProtoType → Prop) :
    (∃ ab, w'.blocks x = some ab ∧ P ab.proto)
      ↔ ((∃ ab, w.blocks x = some ab ∧ P ab.proto) ∨ (x = k ∧ P proto)) := by
  by_cases hx : x = k
  · subst hx
    constructor
    · rintro ⟨ab, hab, hp⟩
      right
      refine ⟨rfl, ?_⟩
      rw [hab] at hatk
      simp only [Option.map_some'] at hatk
      rw [← Option.some.inj hatk]
      exact hp
    · rintro (⟨ab, hab, hp⟩ | ⟨-, hp⟩)
      · rw [hk] at hab
        cases hab
      · cases hw' : w'.blocks x with
        | none => rw [hw'] at hatk; cases hatk
        | some ab' =>
          rw [hw'] at hatk
          simp only [Option.map_some'] at hatk
          exact ⟨ab', rfl, by rw [Option.some.inj hatk]; exact hp⟩
  · have hpr := hat x hx
    constructor
    · rintro ⟨ab, hab, hp⟩
      rw [hab] at hpr
      cases hw : w.blocks x with
      | none => rw [hw] at hpr; cases hpr
      | some b0 =>
        rw [hw] at hpr
        simp only [Option.map_some'] at hpr
        exact .inl ⟨b0, rfl, by rw [← Option.some.inj hpr]; exact hp⟩
    · rintro (⟨ab, hab, hp⟩ | ⟨hxk, -⟩)
      · rw [hab] at hpr
        cases hw' : w'.blocks x with
        | none => rw [hw'] at hpr; cases hpr
        | some ab' =>
          rw [hw'] at hpr
          simp only [Option.map_some'] at hpr
          exact ⟨ab', rfl, by rw [Option.some.inj hpr]; exact hp⟩
      · exact absurd hxk hx

/-- sameInfoProto is reflexive. -/
theorem sameInfoProto_refl (w : World) : sameInfoProto w w :=
  fun _ => ⟨rfl, rfl⟩

/-- sameInfoProto composes. -/
theorem sameInfoProto_trans {w w' w'' : World} (h1 : sameInfoProto w w')
    (h2 : sameInfoProto w' w'') : sameInfoProto w w'' :=
  fun j => ⟨(h2 j).1.trans (h1 j).1, (h2 j).2.trans (h1 j).2⟩

/-- State-only edits do not touch info or proto. -/
theorem sameInfoProto_modifyState (w : World) (c : BlockKey) (f : State → State) :
    sameInfoProto w (w.modifyState c f) := by
  intro j
  unfold World.modifyState
  by_cases hjc : j = c
  · subst hjc
    simp only [if_pos rfl]
    cases w.blocks j <;> simp
  · simp [hjc]

/-- clearOld only edits state. -/
theorem clearOld_sameInfoProto {w : World} {kb : Block} {w1 : World}
    (h : w.clearOld kb = some w1) : sameInfoProto w w1 := by
  unfold World.clearOld at h
  split at h
  · cases h
    exact sameInfoProto_refl w
  · unfold World.clearCell at h
    split at h
    · cases h
    · split at h
      · cases h
      · cases h
        exact sameInfoProto_modifyState _ _ _

/-- writeCell only edits state. -/
theorem writeCell_sameInfoProto {w : World} {c : BlockKey} {xy : Nat × Nat}
    {k : BlockKey} {w1 : World} (h : w.writeCell c xy k = some w1) :
    sameInfoProto w w1 := by
  unfold World.writeCell at h
  split at h
  · cases h
  · split at h
    · cases h
    · cases h
      exact sameInfoProto_modifyState _ _ _

/-- place only edits state. -/
theorem place_sameInfoProto {w w' : World} {k : BlockKey} {p : Position}
    (h : w.place k p = some w') : sameInfoProto w w' := by
  unfold World.place at h
  split at h
  · cases h
  · rename_i kb hkb
    cases hclear : w.clearOld kb with
    | none => rw [hclear] at h; cases h
    | some w1 =>
      rw [hclear] at h
      have hs1 := clearOld_sameInfoProto hclear
      cases hp : p.container with
      | none =>
        rw [hp] at h
        simp only [] at h
        cases h
        exact sameInfoProto_trans hs1 (sameInfoProto_modifyState _ _ _)
      | some cT =>
        rw [hp] at h
        simp only [] at h
        cases hw2 : w1.writeCell cT p.pos k with
        | none => rw [hw2] at h; cases h
        | some w2 =>
          rw [hw2] at h
          cases h
          exact sameInfoProto_trans hs1
            (sameInfoProto_trans (writeCell_sameInfoProto hw2)
              (sameInfoProto_modifyState _ _ _))

/-- commit only edits state. -/
theorem commit_sameInfoProto (st : AlgState) (w : World) :
    sameInfoProto w (commit st w) := by
  unfold commit
  suffices h : ∀ (l : List Movement) (u : World),
      sameInfoProto u (l.foldl (fun wa m => wa.modifyState m.key
        fun s => { s with position := m.target }) u) from h st.movements w
  intro l
  induction l with
  | nil => exact fun u => sameInfoProto_refl u
  | cons m t ih =>
    intro u
    exact sameInfoProto_trans (sameInfoProto_modifyState _ _ _) (ih _)

/-- push only edits state (the commit), whatever the traversal did. -/
theorem push_sameInfoProto {w : World} {key : BlockKey} {d : Direction}
    {fuel : Nat} {r : Except MoveError Bool} {w' : World}
    (h : w.push key d fuel = some (r, w')) : sameInfoProto w w' := by
  unfold World.push at h
  split at h
  · cases h
  · cases h
    exact sameInfoProto_refl w
  · rename_i result st heq
    cases h
    cases result
    · exact sameInfoProto_refl w
    · exact commit_sameInfoProto st w

/-- P4 transfers along sameInfoProto. -/
theorem infoAccurate_of_sameInfoProto {w w' : World}
    (hs : sameInfoProto w w') (h : infoAccurate w) : infoAccurate w' := by
  intro k b hb
  have hk := (hs k).1
  rw [hb] at hk
  cases hw : w.blocks k with
  | none => rw [hw] at hk; cases hk
  | some b0 =>
    rw [hw] at hk
    simp only [Option.map_some'] at hk
    have hinfoEq : b.info = b0.info := Option.some.inj hk
    obtain ⟨h1, h2, h3⟩ := h k b0 hw
    have htrans : ∀ (x : BlockKey) (P : ProtoType → Prop),
        (∃ ab, w'.blocks x = some ab ∧ P ab.proto)
          ↔ (∃ ab, w.blocks x = some ab ∧ P ab.proto) := by
      intro x P
      have hpr := (hs x).2
      constructor
      · rintro ⟨ab, hab, hp⟩
        rw [hab] at hpr
        cases hwx : w.blocks x with
        | none => rw [hwx] at hpr; cases hpr
        | some b1 =>
          rw [hwx] at hpr
          simp only [Option.map_some'] at hpr
          exact ⟨b1, rfl, by rw [← Option.some.inj hpr]; exact hp⟩
      · rintro ⟨ab, hab, hp⟩
        rw [hab] at hpr
        cases hwx : w'.blocks x with
        | none => rw [hwx] at hpr; cases hpr
        | some b1 =>
          rw [hwx] at hpr
          simp only [Option.map_some'] at hpr
          exact ⟨b1, rfl, by rw [Option.some.inj hpr]; exact hp⟩
    refine ⟨?_, ?_, ?_⟩
    · intro r
      rw [hinfoEq, h1 r]
      exact (htrans r fun p => p = .alias k).symm
    · intro i
      rw [hinfoEq, h2 i]
      exact (htrans i fun p => p = .infinity k).symm
    · intro e
      rw [hinfoEq, h3 e]
      exact (htrans e fun p => ∃ s, p = .epsilon s k).symm

/-- A well-formed world has no block at the fresh key. -/
theorem fresh_none (w : World) (hwf : wfWorld w) : w.blocks w.next = none := by
  cases hw : w.blocks w.next with
  | none => rfl
  | some b => exact absurd (hwf.1 _ _ hw) (lt_irrefl _)

/-- extend at the fresh key. -/
theorem extend_blocks_fresh (w : World) (proto : ProtoType) :
    (w.extend proto).blocks w.next = some (Block.new w.next proto) := by
  simp [World.extend]

/-- extend elsewhere. -/
theorem extend_blocks_ne (w : World) (proto : ProtoType) (x : BlockKey)
    (hx : x ≠ w.next) : (w.extend proto).blocks x = w.blocks x := by
  simp [World.extend, hx]

/-- modifyInfo at its key. -/
theorem modifyInfo_blocks_eq (w : World) (r : BlockKey) (f : Info → Info) :
    (w.modifyInfo r f).blocks r
      = (w.blocks r).map fun b => { b with info := f b.info } := by
  simp [World.modifyInfo]

/-- modifyInfo elsewhere. -/
theorem modifyInfo_blocks_ne (w : World) (r : BlockKey) (f : Info → Info)
    (x : BlockKey) (hx : x ≠ r) : (w.modifyInfo r f).blocks x = w.blocks x := by
  simp [World.modifyInfo, hx]

/-- No block of a well-formed world refers to the fresh key. -/
theorem no_ref_to_fresh (w : World) (hwf : wfWorld w) (x : BlockKey) (ab : Block)
    (hab : w.blocks x = some ab)
    (hp : ab.proto.reference = some w.next) : False :=
  absurd (hwf.2 x ab hab w.next hp) (lt_irrefl w.next)

/-- Inserting a Wall, Box or Void (no reference field) preserves P4. -/
theorem infoAccurate_insert_plain (w : World) (proto : ProtoType)
    (hwf : wfWorld w) (hacc : infoAccurate w)
    (hnoref : proto.reference = none) :
    infoAccurate (w.extend proto) := by
  have hfresh := fresh_none w hwf
  have hatk : ((w.extend proto).blocks w.next).map Block.proto = some proto := by
    rw [extend_blocks_fresh]
    rfl
  have hat : ∀ x, x ≠ w.next → ((w.extend proto).blocks x).map Block.proto
      = (w.blocks x).map Block.proto := fun x hx => by
    rw [extend_blocks_ne w proto x hx]
  intro j b hb
  by_cases hj : j = w.next
  · subst hj
    rw [extend_blocks_fresh] at hb
    cases hb
    refine ⟨?_, ?_, ?_⟩
    · intro r
      rw [existsAt_shift hfresh hatk hat r fun p => p = .alias w.next]
      constructor
      · intro hr
        simp [Block.new, Info.default] at hr
      · rintro (⟨ab, hab, hap⟩ | ⟨-, hap⟩)
        · exact absurd (no_ref_to_fresh w hwf _ _ hab (by rw [hap]; rfl)) id
        · rw [hap] at hnoref
          simp [ProtoType.reference] at hnoref
    · intro i
      rw [existsAt_shift hfresh hatk hat i fun p => p = .infinity w.next]
      constructor
      · intro hi
        simp [Block.new, Info.default] at hi
      · rintro (⟨ab, hab, hap⟩ | ⟨-, hap⟩)
        · exact absurd (no_ref_to_fresh w hwf _ _ hab (by rw [hap]; rfl)) id
        · rw [hap] at hnoref
          simp [ProtoType.reference] at hnoref
    · intro e
      rw [existsAt_shift hfresh hatk hat e fun p => ∃ s, p = .epsilon s w.next]
      constructor
      · intro he
        simp [Block.new, Info.default] at he
      · rintro (⟨ab, hab, s, hap⟩ | ⟨-, s, hap⟩)
        · exact absurd (no_ref_to_fresh w hwf _ _ hab (by rw [hap]; rfl)) id
        · rw [hap] at hnoref
          simp [ProtoType.reference] at hnoref
  · rw [extend_blocks_ne w proto j hj] at hb
    obtain ⟨h1, h2, h3⟩ := hacc j b hb
    refine ⟨?_, ?_, ?_⟩
    · intro r
      rw [existsAt_shift hfresh hatk hat r fun p => p = .alias j, h1 r]
      constructor
      · exact .inl
      · rintro (h | ⟨-, hap⟩)
        · exact h
        · rw [hap] at hnoref
          simp [ProtoType.reference] at hnoref
    · intro i
      rw [existsAt_shift hfresh hatk hat i fun p => p = .infinity j, h2 i]
      constructor
      · exact .inl
      · rintro (h | ⟨-, hap⟩)
        · exact h
        · rw [hap] at hnoref
          simp [ProtoType.reference] at hnoref
    · intro e
      rw [existsAt_shift hfresh hatk hat e fun p => ∃ s, p = .epsilon s j, h3 e]
      constructor
      · exact .inl
      · rintro (h | ⟨-, s, hap⟩)
        · exact h
        · rw [hap] at hnoref
          simp [ProtoType.reference] at hnoref

/-- Inserting an Alias of an existing block preserves P4: the referent's
references set gains exactly the fresh key. -/
theorem infoAccurate_insert_alias (w : World) (r0 : BlockKey) (rb0 : Block)
    (hwf : wfWorld w) (hacc : infoAccurate w) (hr0 : r0 < w.next)
    (hrb : w.blocks r0 = some rb0) :
    infoAccurate ((w.extend (.alias r0)).modifyInfo r0
      fun i => { i with references := Info.refInsert w.next i.references }) := by
  have hfresh := fresh_none w hwf
  have hr0ne : r0 ≠ w.next := Nat.ne_of_lt hr0
  have hblocksK : ((w.extend (.alias r0)).modifyInfo r0
      fun i => { i with references := Info.refInsert w.next i.references }).blocks
        w.next = some (Block.new w.next (.alias r0)) := by
    rw [modifyInfo_blocks_ne _ _ _ _ (fun h => hr0ne h.symm)]
    exact extend_blocks_fresh ..
  have hblocksR : ((w.extend (.alias r0)).modifyInfo r0
      fun i => { i with references := Info.refInsert w.next i.references }).blocks
        r0 = some { rb0 with info :=
          { rb0.info with references := Info.refInsert w.next rb0.info.references } } := by
    rw [modifyInfo_blocks_eq, extend_blocks_ne _ _ _ hr0ne, hrb]
    rfl
  have hblocksO : ∀ x, x ≠ w.next → x ≠ r0 →
      ((w.extend (.alias r0)).modifyInfo r0
        fun i => { i with references := Info.refInsert w.next i.references }).blocks
          x = w.blocks x := by
    intro x hx hxr
    rw [modifyInfo_blocks_ne _ _ _ _ hxr, extend_blocks_ne _ _ _ hx]
  have hatk : (((w.extend (.alias r0)).modifyInfo r0
      fun i => { i with references := Info.refInsert w.next i.references }).blocks
        w.next).map Block.proto = some (.alias r0) := by
    rw [hblocksK]
    rfl
  have hat : ∀ x, x ≠ w.next → (((w.extend (.alias r0)).modifyInfo r0
      fun i => { i with references := Info.refInsert w.next i.references }).blocks
        x).map Block.proto = (w.blocks x).map Block.proto := by
    intro x hx
    by_cases hxr : x = r0
    · subst hxr
      rw [hblocksR, hrb]
      rfl
    · rw [hblocksO x hx hxr]
  intro j b hb
  by_cases hj : j = w.next
  · subst hj
    rw [hblocksK] at hb
    cases hb
    refine ⟨?_, ?_, ?_⟩
    · intro r
      rw [existsAt_shift hfresh hatk hat r fun p => p = .alias w.next]
      constructor
      · intro hr
        simp [Block.new, Info.default] at hr
      · rintro (⟨ab, hab, hap⟩ | ⟨-, hap⟩)
        · exact absurd (no_ref_to_fresh w hwf _ _ hab (by rw [hap]; rfl)) id
        · injection hap with h'
          exact absurd h' hr0ne
    · intro i
      rw [existsAt_shift hfresh hatk hat i fun p => p = .infinity w.next]
      constructor
      · intro hi
        simp [Block.new, Info.default] at hi
      · rintro (⟨ab, hab, hap⟩ | ⟨-, hap⟩)
        · exact absurd (no_ref_to_fresh w hwf _ _ hab (by rw [hap]; rfl)) id
        · simp at hap
    · intro e
      rw [existsAt_shift hfresh hatk hat e fun p => ∃ s, p = .epsilon s w.next]
      constructor
      · intro he
        simp [Block.new, Info.default] at he
      · rintro (⟨ab, hab, s, hap⟩ | ⟨-, s, hap⟩)
        · exact absurd (no_ref_to_fresh w hwf _ _ hab (by rw [hap]; rfl)) id
        · simp at hap
  · by_cases hjr : j = r0
    · subst hjr
      rw [hblocksR] at hb
      cases hb
      obtain ⟨h1, h2, h3⟩ := hacc j rb0 hrb
      refine ⟨?_, ?_, ?_⟩
      · intro x
        rw [existsAt_shift hfresh hatk hat x fun p => p = .alias j]
        show x ∈ Info.refInsert w.next rb0.info.references ↔ _
        rw [mem_refInsert, h1 x]
        constructor
        · rintro (hx | hx)
          · exact .inr ⟨hx, rfl⟩
          · exact .inl hx
        · rintro (hx | ⟨hx, -⟩)
          · exact .inr hx
          · exact .inl hx
      · intro i
        rw [existsAt_shift hfresh hatk hat i fun p => p = .infinity j]
        show rb0.info.infinity = some i ↔ _
        rw [h2 i]
        constructor
        · exact .inl
        · rintro (h | ⟨-, hap⟩)
          · exact h
          · simp at hap
      · intro e
        rw [existsAt_shift hfresh hatk hat e fun p => ∃ s, p = .epsilon s j]
        show rb0.info.epsilon = some e ↔ _
        rw [h3 e]
        constructor
        · exact .inl
        · rintro (h | ⟨-, s, hap⟩)
          · exact h
          · simp at hap
    · rw [hblocksO j hj hjr] at hb
      obtain ⟨h1, h2, h3⟩ := hacc j b hb
      refine ⟨?_, ?_, ?_⟩
      · intro x
        rw [existsAt_shift hfresh hatk hat x fun p => p = .alias j, h1 x]
        constructor
        · exact .inl
        · rintro (h | ⟨-, hap⟩)
          · exact h
          · injection hap with h'
            exact absurd h'.symm hjr
      · intro i
        rw [existsAt_shift hfresh hatk hat i fun p => p = .infinity j, h2 i]
        constructor
        · exact .inl
        · rintro (h | ⟨-, hap⟩)
          · exact h
          · simp at hap
      · intro e
        rw [existsAt_shift hfresh hatk hat e fun p => ∃ s, p = .epsilon s j, h3 e]
        constructor
        · exact .inl
        · rintro (h | ⟨-, s, hap⟩)
          · exact h
          · simp at hap

/-- Inserting an Infinity for a referent that has none yet preserves P4:
the referent's infinity back-reference becomes exactly the fresh key. -/
theorem infoAccurate_insert_infinity (w : World) (r0 : BlockKey) (rb0 : Block)
    (hwf : wfWorld w) (hacc : infoAccurate w) (hr0 : r0 < w.next)
    (hrb : w.blocks r0 = some rb0) (hInfNone : rb0.info.infinity = none) :
    infoAccurate ((w.extend (.infinity r0)).modifyInfo r0
      fun i => { i with infinity := some w.next }) := by
  have hfresh := fresh_none w hwf
  have hr0ne : r0 ≠ w.next := Nat.ne_of_lt hr0
  have hblocksK : ((w.extend (.infinity r0)).modifyInfo r0
      fun i => { i with infinity := some w.next }).blocks
        w.next = some (Block.new w.next (.infinity r0)) := by
    rw [modifyInfo_blocks_ne _ _ _ _ (fun h => hr0ne h.symm)]
    exact extend_blocks_fresh ..
  have hblocksR : ((w.extend (.infinity r0)).modifyInfo r0
      fun i => { i with infinity := some w.next }).blocks
        r0 = some { rb0 with info := { rb0.info with infinity := some w.next } } := by
    rw [modifyInfo_blocks_eq, extend_blocks_ne _ _ _ hr0ne, hrb]
    rfl
  have hblocksO : ∀ x, x ≠ w.next → x ≠ r0 →
      ((w.extend (.infinity r0)).modifyInfo r0
        fun i => { i with infinity := some w.next }).blocks x = w.blocks x := by
    intro x hx hxr
    rw [modifyInfo_blocks_ne _ _ _ _ hxr, extend_blocks_ne _ _ _ hx]
  have hatk : (((w.extend (.infinity r0)).modifyInfo r0
      fun i => { i with infinity := some w.next }).blocks
        w.next).map Block.proto = some (.infinity r0) := by
    rw [hblocksK]
    rfl
  have hat : ∀ x, x ≠ w.next → (((w.extend (.infinity r0)).modifyInfo r0
      fun i => { i with infinity := some w.next }).blocks
        x).map Block.proto = (w.blocks x).map Block.proto := by
    intro x hx
    by_cases hxr : x = r0
    · subst hxr
      rw [hblocksR, hrb]
      rfl
    · rw [hblocksO x hx hxr]
  intro j b hb
  by_cases hj : j = w.next
  · subst hj
    rw [hblocksK] at hb
    cases hb
    refine ⟨?_, ?_, ?_⟩
    · intro r
      rw [existsAt_shift hfresh hatk hat r fun p => p = .alias w.next]
      constructor
      · intro hr
        simp [Block.new, Info.default] at hr
      · rintro (⟨ab, hab, hap⟩ | ⟨-, hap⟩)
        · exact absurd (no_ref_to_fresh w hwf _ _ hab (by rw [hap]; rfl)) id
        · simp at hap
    · intro i
      rw [existsAt_shift hfresh hatk hat i fun p => p = .infinity w.next]
      constructor
      · intro hi
        simp [Block.new, Info.default] at hi
      · rintro (⟨ab, hab, hap⟩ | ⟨-, hap⟩)
        · exact absurd (no_ref_to_fresh w hwf _ _ hab (by rw [hap]; rfl)) id
        · injection hap with h'
          exact absurd h' hr0ne
    · intro e
      rw [existsAt_shift hfresh hatk hat e fun p => ∃ s, p = .epsilon s w.next]
      constructor
      · intro he
        simp [Block.new, Info.default] at he
      · rintro (⟨ab, hab, s, hap⟩ | ⟨-, s, hap⟩)
        · exact absurd (no_ref_to_fresh w hwf _ _ hab (by rw [hap]; rfl)) id
        · simp at hap
  · by_cases hjr : j = r0
    · subst hjr
      rw [hblocksR] at hb
      cases hb
      obtain ⟨h1, h2, h3⟩ := hacc j rb0 hrb
      refine ⟨?_, ?_, ?_⟩
      · intro x
        rw [existsAt_shift hfresh hatk hat x fun p => p = .alias j]
        show x ∈ rb0.info.references ↔ _
        rw [h1 x]
        constructor
        · exact .inl
        · rintro (h | ⟨-, hap⟩)
          · exact h
          · simp at hap
      · intro i
        rw [existsAt_shift hfresh hatk hat i fun p => p = .infinity j]
        show some w.next = some i ↔ _
        constructor
        · intro h
          exact .inr ⟨(Option.some.inj h).symm, rfl⟩
        · rintro (h | ⟨hi, -⟩)
          · have := (h2 i).mpr h
            rw [hInfNone] at this
            cases this
          · rw [hi]
      · intro e
        rw [existsAt_shift hfresh hatk hat e fun p => ∃ s, p = .epsilon s j]
        show rb0.info.epsilon = some e ↔ _
        rw [h3 e]
        constructor
        · exact .inl
        · rintro (h | ⟨-, s, hap⟩)
          · exact h
          · simp at hap
    · rw [hblocksO j hj hjr] at hb
      obtain ⟨h1, h2, h3⟩ := hacc j b hb
      refine ⟨?_, ?_, ?_⟩
      · intro x
        rw [existsAt_shift hfresh hatk hat x fun p => p = .alias j, h1 x]
        constructor
        · exact .inl
        · rintro (h | ⟨-, hap⟩)
          · exact h
          · simp at hap
      · intro i
        rw [existsAt_shift hfresh hatk hat i fun p => p = .infinity j, h2 i]
        constructor
        · exact .inl
        · rintro (h | ⟨-, hap⟩)
          · exact h
          · injection hap with h'
            exact absurd h'.symm hjr
      · intro e
        rw [existsAt_shift hfresh hatk hat e fun p => ∃ s, p = .epsilon s j, h3 e]
        constructor
        · exact .inl
        · rintro (h | ⟨-, s, hap⟩)
          · exact h
          · simp at hap

/-- Inserting an Epsilon for a referent that has none yet preserves P4:
the referent's epsilon back-reference becomes exactly the fresh key. -/
theorem infoAccurate_insert_epsilon (w : World) (s0 : Size) (r0 : BlockKey)
    (rb0 : Block) (hwf : wfWorld w) (hacc : infoAccurate w) (hr0 : r0 < w.next)
    (hrb : w.blocks r0 = some rb0) (hEpsNone : rb0.info.epsilon = none) :
    infoAccurate ((w.extend (.epsilon s0 r0)).modifyInfo r0
      fun i => { i with epsilon := some w.next }) := by
  have hfresh := fresh_none w hwf
  have hr0ne : r0 ≠ w.next := Nat.ne_of_lt hr0
  have hblocksK : ((w.extend (.epsilon s0 r0)).modifyInfo r0
      fun i => { i with epsilon := some w.next }).blocks
        w.next = some (Block.new w.next (.epsilon s0 r0)) := by
    rw [modifyInfo_blocks_ne _ _ _ _ (fun h => hr0ne h.symm)]
    exact extend_blocks_fresh ..
  have hblocksR : ((w.extend (.epsilon s0 r0)).modifyInfo r0
      fun i => { i with epsilon := some w.next }).blocks
        r0 = some { rb0 with info := { rb0.info with epsilon := some w.next } } := by
    rw [modifyInfo_blocks_eq, extend_blocks_ne _ _ _ hr0ne, hrb]
    rfl
  have hblocksO : ∀ x, x ≠ w.next → x ≠ r0 →
      ((w.extend (.epsilon s0 r0)).modifyInfo r0
        fun i => { i with epsilon := some w.next }).blocks x = w.blocks x := by
    intro x hx hxr
    rw [modifyInfo_blocks_ne _ _ _ _ hxr, extend_blocks_ne _ _ _ hx]
  have hatk : (((w.extend (.epsilon s0 r0)).modifyInfo r0
      fun i => { i with epsilon := some w.next }).blocks
        w.next).map Block.proto = some (.epsilon s0 r0) := by
    rw [hblocksK]
    rfl
  have hat : ∀ x, x ≠ w.next → (((w.extend (.epsilon s0 r0)).modifyInfo r0
      fun i => { i with epsilon := some w.next }).blocks
        x).map Block.proto = (w.blocks x).map Block.proto := by
    intro x hx
    by_cases hxr : x = r0
    · subst hxr
      rw [hblocksR, hrb]
      rfl
    · rw [hblocksO x hx hxr]
  intro j b hb
  by_cases hj : j = w.next
  · subst hj
    rw [hblocksK] at hb
    cases hb
    refine ⟨?_, ?_, ?_⟩
    · intro r
      rw [existsAt_shift hfresh hatk hat r fun p => p = .alias w.next]
      constructor
      · intro hr
        simp [Block.new, Info.default] at hr
      · rintro (⟨ab, hab, hap⟩ | ⟨-, hap⟩)
        · exact absurd (no_ref_to_fresh w hwf _ _ hab (by rw [hap]; rfl)) id
        · simp at hap
    · intro i
      rw [existsAt_shift hfresh hatk hat i fun p => p = .infinity w.next]
      constructor
      · intro hi
        simp [Block.new, Info.default] at hi
      · rintro (⟨ab, hab, hap⟩ | ⟨-, hap⟩)
        · exact absurd (no_ref_to_fresh w hwf _ _ hab (by rw [hap]; rfl)) id
        · simp at hap
    · intro e
      rw [existsAt_shift hfresh hatk hat e fun p => ∃ s, p = .epsilon s w.next]
      constructor
      · intro he
        simp [Block.new, Info.default] at he
      · rintro (⟨ab, hab, s, hap⟩ | ⟨-, s, hap⟩)
        · exact absurd (no_ref_to_fresh w hwf _ _ hab (by rw [hap]; rfl)) id
        · injection hap with h1 h2
          exact absurd h2 hr0ne
  · by_cases hjr : j = r0
    · subst hjr
      rw [hblocksR] at hb
      cases hb
      obtain ⟨h1, h2, h3⟩ := hacc j rb0 hrb
      refine ⟨?_, ?_, ?_⟩
      · intro x
        rw [existsAt_shift hfresh hatk hat x fun p => p = .alias j]
        show x ∈ rb0.info.references ↔ _
        rw [h1 x]
        constructor
        · exact .inl
        · rintro (h | ⟨-, hap⟩)
          · exact h
          · simp at hap
      · intro i
        rw [existsAt_shift hfresh hatk hat i fun p => p = .infinity j]
        show rb0.info.infinity = some i ↔ _
        rw [h2 i]
        constructor
        · exact .inl
        · rintro (h | ⟨-, hap⟩)
          · exact h
          · simp at hap
      · intro e
        rw [existsAt_shift hfresh hatk hat e fun p => ∃ s, p = .epsilon s j]
        show some w.next = some e ↔ _
        constructor
        · intro h
          exact .inr ⟨(Option.some.inj h).symm, s0, rfl⟩
        · rintro (h | ⟨he, -⟩)
          · have := (h3 e).mpr h
            rw [hEpsNone] at this
            cases this
          · rw [he]
    · rw [hblocksO j hj hjr] at hb
      obtain ⟨h1, h2, h3⟩ := hacc j b hb
      refine ⟨?_, ?_, ?_⟩
      · intro x
        rw [existsAt_shift hfresh hatk hat x fun p => p = .alias j, h1 x]
        constructor
        · exact .inl
        · rintro (h | ⟨-, hap⟩)
          · exact h
          · simp at hap
      · intro i
        rw [existsAt_shift hfresh hatk hat i fun p => p = .infinity j, h2 i]
        constructor
        · exact .inl
        · rintro (h | ⟨-, hap⟩)
          · exact h
          · simp at hap
      · intro e
        rw [existsAt_shift hfresh hatk hat e fun p => ∃ s, p = .epsilon s j, h3 e]
        constructor
        · exact .inl
        · rintro (h | ⟨-, s, hap⟩)
          · exact h
          · injection hap with h1 h2
            exact absurd h2.symm hjr

/-- World::insert preserves P4 under the key discipline, provided an
Infinity/Epsilon insert does not displace an existing back-reference. -/
theorem insert_infoAccurate (w : World) (proto : ProtoType) (k : BlockKey)
    (w' : World) (hwf : wfWorld w) (hacc : infoAccurate w)
    (href : ∀ r, proto.reference = some r → r < w.next)
    (hinfC : ∀ r b, proto = .infinity r → w.blocks r = some b →
      b.info.infinity = none)
    (hepsC : ∀ s r b, proto = .epsilon s r → w.blocks r = some b →
      b.info.epsilon = none)
    (hins : w.insert proto = some (k, w')) : infoAccurate w' := by
  cases proto
  · unfold World.insert at hins
    simp only [Option.some.injEq, Prod.mk.injEq] at hins
    rw [← hins.2]
    exact infoAccurate_insert_plain w .wall hwf hacc rfl
  · rename_i s
    unfold World.insert at hins
    simp only [Option.some.injEq, Prod.mk.injEq] at hins
    rw [← hins.2]
    exact infoAccurate_insert_plain w (.box s) hwf hacc rfl
  · rename_i r0
    unfold World.insert at hins
    dsimp only at hins
    have hr0 : r0 < w.next := href r0 rfl
    cases hw : (w.extend (.alias r0)).blocks r0 with
    | none =>
      rw [hw] at hins
      cases hins
    | some rb =>
      rw [hw] at hins
      simp only [Option.some.injEq, Prod.mk.injEq] at hins
      rw [← hins.2]
      rw [extend_blocks_ne _ _ _ (Nat.ne_of_lt hr0)] at hw
      exact infoAccurate_insert_alias w r0 rb hwf hacc hr0 hw
  · rename_i r0
    unfold World.insert at hins
    dsimp only at hins
    have hr0 : r0 < w.next := href r0 rfl
    cases hw : (w.extend (.infinity r0)).blocks r0 with
    | none =>
      rw [hw] at hins
      cases hins
    | some rb =>
      rw [hw] at hins
      simp only [Option.some.injEq, Prod.mk.injEq] at hins
      rw [← hins.2]
      rw [extend_blocks_ne _ _ _ (Nat.ne_of_lt hr0)] at hw
      exact infoAccurate_insert_infinity w r0 rb hwf hacc hr0 hw
        (hinfC r0 rb rfl hw)
  · rename_i s0 r0
    unfold World.insert at hins
    dsimp only at hins
    have hr0 : r0 < w.next := href r0 rfl
    cases hw : (w.extend (.epsilon s0 r0)).blocks r0 with
    | none =>
      rw [hw] at hins
      cases hins
    | some rb =>
      rw [hw] at hins
      simp only [Option.some.injEq, Prod.mk.injEq] at hins
      rw [← hins.2]
      rw [extend_blocks_ne _ _ _ (Nat.ne_of_lt hr0)] at hw
      exact infoAccurate_insert_epsilon w s0 r0 rb hwf hacc hr0 hw
        (hepsC s0 r0 rb rfl hw)
  · rename_i s
    unfold World.insert at hins
    simp only [Option.some.injEq, Prod.mk.injEq] at hins
    rw [← hins.2]
    exact infoAccurate_insert_plain w (.void s) hwf hacc rfl

/-- C4 (amended): insert (with an existing referent below the fresh key
and no displaced Infinity/Epsilon back-reference), place, and push all
preserve P4; removal of a referring block is excluded, as the
counterexample shows it leaves a stale back-reference. -/
theorem c4_info_accuracy_amended :
    (∀ (w : World) (proto : ProtoType) (k : BlockKey) (w' : World),
      wfWorld w → infoAccurate w →
      (∀ r, proto.reference = some r → r < w.next) →
      (∀ r b, proto = .infinity r → w.blocks r = some b →
        b.info.infinity = none) →
      (∀ s r b, proto = .epsilon s r → w.blocks r = some b →
        b.info.epsilon = none) →
      w.insert proto = some (k, w') → infoAccurate w') ∧
    (∀ (w : World) (k : BlockKey) (p : Position) (w' : World),
      w.place k p = some w' → infoAccurate w → infoAccurate w') ∧
    (∀ (w : World) (key : BlockKey) (d : Direction) (fuel : Nat)
      (r : Except MoveError Bool) (w' : World),
      w.push key d fuel = some (r, w') → infoAccurate w → infoAccurate w') :=
  ⟨fun w proto k w' hwf hacc href hinf heps hins =>
    insert_infoAccurate w proto k w' hwf hacc href hinf heps hins,
   fun _ _ _ _ h hacc => infoAccurate_of_sameInfoProto (place_sameInfoProto h) hacc,
   fun _ _ _ _ _ _ h hacc => infoAccurate_of_sameInfoProto (push_sameInfoProto h) hacc⟩

/-- A world of reference-free prototypes with default infos satisfies P4. -/
theorem infoAccurate_of_no_refs (w : World)
    (hrefs : ∀ x ab, w.blocks x = some ab → ab.proto.reference = none)
    (hinfos : ∀ x ab, w.blocks x = some ab → ab.info = Info.default) :
    infoAccurate w := by
  intro k b hb
  have hi := hinfos k b hb
  refine ⟨?_, ?_, ?_⟩
  · intro r
    rw [hi]
    constructor
    · intro hr
      simp [Info.default] at hr
    · rintro ⟨ab, hab, hap⟩
      have hr := hrefs _ _ hab
      rw [hap] at hr
      simp [ProtoType.reference] at hr
  · intro i
    rw [hi]
    constructor
    · intro h
      simp [Info.default] at h
    · rintro ⟨ib, hib, hip⟩
      have hr := hrefs _ _ hib
      rw [hip] at hr
      simp [ProtoType.reference] at hr
  · intro e
    rw [hi]
    constructor
    · intro h
      simp [Info.default] at h
    · rintro ⟨eb, heb, s, hep⟩
      have hr := hrefs _ _ heb
      rw [hep] at hr
      simp [ProtoType.reference] at hr

/-- Witness for the amended C4: a Box insert into the empty world, the
overwriting place of c10World and the successful push of c1World all
yield P4-accurate worlds. -/
theorem c4_info_accuracy_witness :
    infoAccurate c4w1 ∧ infoAccurate c10After ∧ infoAccurate c1After := by
  have hnew_wf : wfWorld World.new := by
    constructor
    · intro k b hb
      exact absurd hb (by simp [World.new])
    · intro k b hb
      exact absurd hb (by simp [World.new])
  have hnew_acc : infoAccurate World.new := by
    intro k b hb
    exact absurd hb (by simp [World.new])
  refine ⟨?_, ?_, ?_⟩
  · exact c4_info_accuracy_amended.1 World.new (.box (1, 1)) 0 c4w1 hnew_wf
      hnew_acc
      (by intro r hr; simp [ProtoType.reference] at hr)
      (by intro r b h; cases h)
      (by intro s r b h; cases h)
      rfl
  · have hacc10 : infoAccurate c10World := by
      refine infoAccurate_of_no_refs c10World ?_ ?_
      · intro x ab hab
        simp only [c10World] at hab
        split_ifs at hab <;> (cases hab; try rfl)
      · intro x ab hab
        simp only [c10World] at hab
        split_ifs at hab <;> (cases hab; try rfl)
    rcases hp : c10World.place 2 (Position.inside 0 (0, 0)) with _ | w'
    · have hs : (c10World.place 2 (Position.inside 0 (0, 0))).isSome = true := by
        decide
      rw [hp] at hs
      cases hs
    · have h10 : c10After = w' := by
        unfold c10After
        rw [hp]
        rfl
      rw [h10]
      exact c4_info_accuracy_amended.2.1 c10World 2 (Position.inside 0 (0, 0)) w'
        hp hacc10
  · have hacc1 : infoAccurate c1World := by
      refine infoAccurate_of_no_refs c1World ?_ ?_
      · intro x ab hab
        simp only [c1World] at hab
        split_ifs at hab <;> (cases hab; try rfl)
      · intro x ab hab
        simp only [c1World] at hab
        split_ifs at hab <;> (cases hab; try rfl)
    have h1 : (c1World.push 1 .east 30).map Prod.fst = some (.ok true) := by
      simp [World.push, pushStep, push_from, push_into, pushIntoLoop,
        source_to_target, target_to_movement, World.position_state, World.get,
        c1World, cellAt, AlgState.init, AlgState.confirm, Rational.HALF,
        Position.inside, Position.orphan, ProtoType.is_static,
        ProtoType.contains, ProtoType.size, Direction.delta, positionedContains,
        positionedInsert, posEqB, Info.default, commit, World.modifyState]
    rcases hp : c1World.push 1 .east 30 with _ | ⟨r, w'⟩
    · rw [hp] at h1
      cases h1
    · have hafter : c1After = w' := by
        unfold c1After
        rw [hp]
        rfl
      rw [hafter]
      exact c4_info_accuracy_amended.2.2 c1World 1 .east 30 r w' hp hacc1

/-- C4 (counterexample): after inserting box 0 and alias 1 of it, removing
the alias leaves the world without block 1 while block 0's references set
still holds the stale key 1, so P4 fails after World::remove of a
referring Alias block. -/
theorem c4_remove_alias_stale_reference :
    ((World.new.insert (.box (1, 1))).map Prod.fst) = some 0 ∧
    ((c4w1.insert (.alias 0)).map Prod.fst) = some 1 ∧
    (c4w2.remove 1 10).isSome = true ∧
    c4w3.blocks 1 = none ∧
    ((c4w3.blocks 0).map fun b => b.info.references) = some [1] ∧
    ¬ infoAccurate c4w3 := by
  have hb1 : c4w3.blocks 1 = none := by
    simp [c4w3, c4w2, c4w1, World.remove, World.removeList, World.clearOld,
      World.clearCell, World.placeOrphans, gridChildren, World.removeKey,
      World.insert, World.extend, World.new, Block.new, State.new, Info.default,
      Info.refInsert, World.modifyInfo, List.replicate, setCell, ProtoType.size,
      Position.orphan, Position.inside]
  have hb0 : c4w3.blocks 0 = some ⟨0, .box (1, 1),
      ⟨Position.orphan, [[none]]⟩, ⟨[1], none, none⟩⟩ := by
    simp [c4w3, c4w2, c4w1, World.remove, World.removeList, World.clearOld,
      World.clearCell, World.placeOrphans, gridChildren, World.removeKey,
      World.insert, World.extend, World.new, Block.new, State.new, Info.default,
      Info.refInsert, World.modifyInfo, List.replicate, setCell, ProtoType.size,
      Position.orphan, Position.inside]
  refine ⟨rfl, rfl, ?_, hb1, ?_, ?_⟩
  · simp [c4w2, c4w1, World.remove, World.removeList, World.clearOld,
      World.clearCell, World.placeOrphans, gridChildren, World.removeKey,
      World.insert, World.extend, World.new, Block.new, State.new, Info.default,
      Info.refInsert, World.modifyInfo, List.replicate, setCell, ProtoType.size,
      Position.orphan, Position.inside]
  · rw [hb0]
    rfl
  · intro h
    obtain ⟨ab, hab, -⟩ := ((h 0 _ hb0).1 1).mp (by decide)
    rw [hb1] at hab
    cases hab

end Parabox
